import Mathlib

/-!
Verification of the odata2orm filter compiler core.

The JavaScript runtime values flowing through the converter (Prisma where
clauses) are modelled by the mutual inductive type JsonVal below.  Dates are
modelled by JsDate: a Date built by Date.UTC(y, m, 1) is represented by its
month index y*12+m together with the day (JS normalises month overflow, which
the month-index representation captures), and a Date built by parsing a string
is kept symbolically.
-/

/-- Euclid with explicit fuel, so that the kernel can evaluate it (the fuel
    always suffices: it starts above the first argument, which strictly
    decreases). -/
def gcdFuel : Nat → Nat → Nat → Nat
  | 0, _, b => b
  | _ + 1, 0, b => b
  | f + 1, a + 1, b => gcdFuel f (b % (a + 1)) (a + 1)

def natGcd (a b : Nat) : Nat := gcdFuel (a + b + 1) a b

/-- Exact rational numbers in canonical form (reduced, positive denominator),
    used to model the JS number values reached by the claims; every operation
    renormalises, so structural equality is rational equality on all values
    the development constructs. -/
structure Q2 where
  num : Int
  den : Nat
  deriving DecidableEq, Repr

/-- Build the canonical rational n/d.  A zero denominator yields 0 (JS would
    produce an infinity; the theorems below keep away from that case by
    hypothesis). -/
def mkQ (n d : Int) : Q2 :=
  if d = 0 then ⟨0, 1⟩
  else
    let n1 : Int := if d < 0 then -n else n
    let d1 : Nat := d.natAbs
    let g : Nat := natGcd n1.natAbs d1
    ⟨n1 / g, d1 / g⟩

def qOfInt (n : Int) : Q2 := ⟨n, 1⟩

def qAdd (a b : Q2) : Q2 := mkQ (a.num * b.den + b.num * a.den) (a.den * b.den)

def qSub (a b : Q2) : Q2 := mkQ (a.num * b.den - b.num * a.den) (a.den * b.den)

def qMul (a b : Q2) : Q2 := mkQ (a.num * b.num) (a.den * b.den)

def qDiv (a b : Q2) : Q2 := mkQ (a.num * b.den) (a.den * b.num)

def qNeg (a : Q2) : Q2 := ⟨-a.num, a.den⟩

def qFloor (q : Q2) : Int := Int.fdiv q.num q.den

def qCeil (q : Q2) : Int := -Int.fdiv (-q.num) q.den

inductive JsDate where
  | utc (monthIdx : Int) (day : Int)
  | parsed (s : String)
  | invalid
  deriving DecidableEq, Repr

mutual

inductive JsonVal where
  | jnull
  | jnan
  | jbool (b : Bool)
  | jnum (q : Q2)
  | jstr (s : String)
  | jdate (t : JsDate)
  | jarr (xs : JsonList)
  | jobj (fs : JsonFields)
  deriving DecidableEq, Repr

inductive JsonList where
  | nil
  | cons (hd : JsonVal) (tl : JsonList)
  deriving DecidableEq, Repr

inductive JsonFields where
  | nil
  | cons (key : String) (val : JsonVal) (tl : JsonFields)
  deriving DecidableEq, Repr

end

open JsonVal

/-- Property lookup on an object field list: `fs.k` in JS (first match). -/
def getProp : JsonFields → String → Option JsonVal
  | .nil, _ => none
  | .cons k v tl, key => if k = key then some v else getProp tl key

/-- Property lookup on an arbitrary JS value: only plain objects expose
    named properties in the code paths modelled here. -/
def getPropV : JsonVal → String → Option JsonVal
  | .jobj fs, key => getProp fs key
  | _, _ => none

/-- Length of a JS array value list. -/
def jlLength : JsonList → Nat
  | .nil => 0
  | .cons _ tl => jlLength tl + 1

/-- List concatenation on JsonList. -/
def jlAppend : JsonList → JsonList → JsonList
  | .nil, ys => ys
  | .cons v tl, ys => .cons v (jlAppend tl ys)

/-- Membership test, used to model the JS Set in the dedup step
    (SameValueZero; on the scalar values reached by the theorems below this
    coincides with structural equality, and NaN equals NaN as in a Set). -/
def jlContains : JsonList → JsonVal → Bool
  | .nil, _ => false
  | .cons v tl, x => if v = x then true else jlContains tl x

/-- First-occurrence deduplication: models spreading a JS Set built from a
    list back into an array. -/
def dedupGo : JsonList → JsonList → JsonList
  | .nil, _ => .nil
  | .cons v tl, seen =>
    if jlContains seen v then dedupGo tl seen
    else .cons v (dedupGo tl (.cons v seen))

def dedupJ (xs : JsonList) : JsonList := dedupGo xs .nil

/-- Truthiness conjoined with typeof object, i.e. the JS test
    `v && typeof v === 'object'`: non-null object values (plain objects,
    arrays, Date objects). -/
def truthyObject : JsonVal → Bool
  | .jobj _ => true
  | .jarr _ => true
  | .jdate _ => true
  | _ => false

/-- Object with a single field. -/
def jobj1 (k : String) (v : JsonVal) : JsonVal := .jobj (.cons k v .nil)

/-- The string characters as single-character string values. -/
def charsToJson : List Char → JsonList
  | [] => .nil
  | c :: cs => .cons (.jstr (String.mk [c])) (charsToJson cs)

/-- JS array-spread of a value: arrays give their elements and strings their
    characters; any other value is not iterable, so the source would throw a
    TypeError there.  The throwing case is mapped to none, and every theorem
    below stays on inputs where it is not reached. -/
def spreadIn : JsonVal → Option JsonList
  | .jarr xs => some xs
  | .jstr s => some (charsToJson s.data)
  | _ => none

/-- Object.keys(c).length together with c[keys[0]]: returns the unique
    key/value pair when the value has exactly one own enumerable property
    (single-entry objects; singleton arrays and one-character strings get
    index key "0"), and none otherwise. -/
def singleProp : JsonVal → Option (String × JsonVal)
  | .jobj (.cons k v .nil) => some (k, v)
  | .jarr (.cons v .nil) => some ("0", v)
  | .jstr s => match s.data with
      | [c] => some ("0", .jstr (String.mk [c]))
      | _ => none
  | _ => none

/-!
optimizer.ts, flattenOrConditions: the inner collectConditions walks the OR
list and descends into any member whose OR property is an array, collecting
all other members as leaves.
-/

mutual

def collectList : JsonList → JsonList
  | .nil => .nil
  | .cons c tl =>
    match c with
    | .jobj fs =>
      match collectOr fs with
      | some leaves => jlAppend leaves (collectList tl)
      | none => .cons c (collectList tl)
    | _ => .cons c (collectList tl)

/-- Finds the first OR property of the member; when its value is an array the
    member is descended into (returning the collected leaves of that array),
    otherwise the member is a leaf. -/
def collectOr : JsonFields → Option JsonList
  | .nil => none
  | .cons k v tl =>
    if k = "OR" then
      match v with
      | .jarr xs => some (collectList xs)
      | _ => none
    else collectOr tl

end

/-- The per-field value accumulator fieldValues: appends values to an existing
    field entry, or registers the field at the end (JS object key insertion
    order). -/
def recAdd : List (String × JsonList) → String → JsonList → List (String × JsonList)
  | [], f, vs => [(f, vs)]
  | (g, ws) :: tl, f, vs =>
    if g = f then (g, jlAppend ws vs) :: tl else (g, ws) :: recAdd tl f vs

/-- The classification loop of flattenOrConditions over the collected leaves:
    each leaf must have exactly one key whose value is an object carrying an
    equals property (one value) or an in property (spread values); otherwise
    the whole optimization is abandoned (none). -/
def classifyConds : JsonList → List (String × JsonList) → Option (List (String × JsonList))
  | .nil, acc => some acc
  | .cons c tl, acc =>
    match singleProp c with
    | some (f, v) =>
      if truthyObject v then
        match getPropV v "equals" with
        | some e => classifyConds tl (recAdd acc f (.cons e .nil))
        | none =>
          match getPropV v "in" with
          | some w =>
            match spreadIn w with
            | some ws => classifyConds tl (recAdd acc f ws)
            | none => none
          | none => none
      else none
    | none => none

/-- optimizer.ts flattenOrConditions: collect the leaves of the nested OR
    structure, require every leaf to be a same-shaped equality/in condition,
    and when exactly one field is involved return it with the deduplicated
    value list. -/
def flattenOrConditions (orClause : JsonList) : Option (String × JsonList) :=
  match classifyConds (collectList orClause) [] with
  | some [(f, vs)] => some (f, dedupJ vs)
  | _ => none

/-!
optimizer.ts optimizeOrToIn.  Non-object (and null) inputs are returned
unchanged by the typeof guard.  An object whose OR property is an array is
flattened; with more than one distinct value the whole object is replaced by
an in condition, with exactly one by an equals condition.  Otherwise the
recursion rebuilds the object from Object.entries, mapping over array values
and recursing into object values — note that Object.entries of a Date is
empty, so a Date value anywhere in this walk becomes an empty object, and
Object.entries of an array turns it into an index-keyed object.
-/

mutual

def optimizeOrToIn : JsonVal → JsonVal
  | .jobj fs =>
    match getProp fs "OR" with
    | some (.jarr conds) =>
      match flattenOrConditions conds with
      | some (f, vs) =>
        if 1 < jlLength vs then jobj1 f (jobj1 "in" (.jarr vs))
        else
          match vs with
          | .cons v .nil => jobj1 f (jobj1 "equals" v)
          | _ => .jobj (optFields fs)
      | none => .jobj (optFields fs)
    | _ => .jobj (optFields fs)
  | .jarr xs => .jobj (entriesArr xs 0)
  | .jdate _ => .jobj .nil
  | v => v

def optFields : JsonFields → JsonFields
  | .nil => .nil
  | .cons k (.jarr xs) tl => .cons k (.jarr (optEach xs)) (optFields tl)
  | .cons k (.jobj fs) tl => .cons k (optimizeOrToIn (.jobj fs)) (optFields tl)
  | .cons k (.jdate t) tl => .cons k (optimizeOrToIn (.jdate t)) (optFields tl)
  | .cons k v tl => .cons k v (optFields tl)

def optEach : JsonList → JsonList
  | .nil => .nil
  | .cons v tl => .cons (optimizeOrToIn v) (optEach tl)

def entriesArr : JsonList → Nat → JsonFields
  | .nil, _ => .nil
  | .cons (.jarr xs) tl, i => .cons (toString i) (.jarr (optEach xs)) (entriesArr tl (i + 1))
  | .cons (.jobj fs) tl, i => .cons (toString i) (optimizeOrToIn (.jobj fs)) (entriesArr tl (i + 1))
  | .cons (.jdate t) tl, i => .cons (toString i) (optimizeOrToIn (.jdate t)) (entriesArr tl (i + 1))
  | .cons v tl, i => .cons (toString i) v (entriesArr tl (i + 1))

end

/-!
The AST produced by the upstream odata-v4-parser.  Nodes are a tagged union
dispatched on a type string; single-child wrapper nodes (FirstMember, Member,
PropertyPath, Paren, BoolParen, Not, Common) share the constructor un, binary
nodes (the six comparisons, And/Or, the four arithmetic expressions) share
bin, and method calls, in-expressions, identifiers and literals have their own
constructors.  The parser attaches a raw source string to every token; only
literal tokens' raw is consumed by the converter (getLiteralValue), so raw is
kept on literals alone and getLiteralValue of any other node returns null,
matching the missing-raw guard of the source for the nodes the claims reach.
-/

mutual

inductive Ast where
  | lit (raw : String)
  | ident (name : String)
  | un (ty : String) (v : Ast)
  | bin (ty : String) (left right : Ast)
  | methodCall (method : String) (parameters : AstList)
  | inExpr (left : Ast) (items : AstList)
  deriving DecidableEq, Repr

inductive AstList where
  | nil
  | cons (hd : Ast) (tl : AstList)
  deriving DecidableEq, Repr

end

/-- parameters[i]: positional access, missing positions are undefined. -/
def astParam : AstList → Nat → Option Ast
  | .nil, _ => none
  | .cons a _, 0 => some a
  | .cons _ tl, n + 1 => astParam tl n

/-- helpers.ts getFieldName: unwraps member/property wrappers down to the
    identifier name; a tolower/toupper/trim call is transparent (field taken
    from its first parameter). -/
def getFieldName : Ast → Except String String
  | .un ty v =>
    if ty = "FirstMemberExpression" ∨ ty = "MemberExpression" ∨ ty = "PropertyPathExpression" then
      getFieldName v
    else .error ("Unsupported field expression type: " ++ ty)
  | .ident name => .ok name
  | .methodCall m ps =>
    if m = "tolower" ∨ m = "toupper" ∨ m = "trim" then
      match ps with
      | .cons p _ => getFieldName p
      | .nil => .error "Invalid field expression"
    else .error ("Cannot extract field name from method: " ++ m)
  | .lit _ => .error "Unsupported field expression type: Literal"
  | .bin ty _ _ => .error ("Unsupported field expression type: " ++ ty)
  | .inExpr _ _ => .error "Unsupported field expression type: InExpression"

/-- getFieldName applied to a possibly-missing parameter: getFieldName of
    undefined hits the missing-node guard. -/
def getFieldNameOpt : Option Ast → Except String String
  | some a => getFieldName a
  | none => .error "Invalid field expression"

/-- Leading-whitespace trim as performed by the JS numeric parsers. -/
def dropWs : List Char → List Char
  | [] => []
  | c :: cs => if c = ' ' ∨ c = '\t' ∨ c = '\n' ∨ c = '\r' then dropWs cs else c :: cs

/-- Maximal digit prefix and the remaining characters. -/
def splitDigits : List Char → List Char × List Char
  | [] => ([], [])
  | c :: cs =>
    if c.isDigit then
      let (ds, rest) := splitDigits cs
      (c :: ds, rest)
    else ([], c :: cs)

def natOfDigits (ds : List Char) : Nat :=
  ds.foldl (fun a c => a * 10 + (c.toNat - 48)) 0

/-- JS parseInt(s, 10): leading whitespace, optional sign, maximal digit
    prefix (trailing junk ignored); none models NaN. -/
def parseIntJS (s : String) : Option Int :=
  let go : List Char → Option Nat := fun cs =>
    match splitDigits cs with
    | ([], _) => none
    | (ds, _) => some (natOfDigits ds)
  match dropWs s.data with
  | '-' :: rest => (go rest).map (fun n => -(n : Int))
  | '+' :: rest => (go rest).map (fun n => (n : Int))
  | cs => (go cs).map (fun n => (n : Int))

/-- Decimal mantissa with optional fraction and exponent, as accepted by JS
    parseFloat (Infinity literals are not modelled; no claim reaches them).
    Returns none for NaN. -/
def parseFloatCore (cs : List Char) : Option Q2 :=
  let (ids, rest) := splitDigits cs
  let (fds, rest2) :=
    match rest with
    | '.' :: r => splitDigits r
    | _ => ([], rest)
  if ids = [] ∧ fds = [] then none
  else
    let mant : Q2 := mkQ (natOfDigits ids * 10 ^ fds.length + natOfDigits fds) (10 ^ fds.length)
    let applyExp : List Char → Bool → Q2 := fun r3 negExp =>
      match splitDigits r3 with
      | ([], _) => mant
      | (eds, _) =>
        if negExp then qDiv mant (qOfInt (10 ^ natOfDigits eds))
        else qMul mant (qOfInt (10 ^ natOfDigits eds))
    some (match rest2 with
      | 'e' :: '-' :: r3 => applyExp r3 true
      | 'E' :: '-' :: r3 => applyExp r3 true
      | 'e' :: '+' :: r3 => applyExp r3 false
      | 'E' :: '+' :: r3 => applyExp r3 false
      | 'e' :: r3 => applyExp r3 false
      | 'E' :: r3 => applyExp r3 false
      | _ => mant)

/-- JS parseFloat. -/
def parseFloatJS (s : String) : Option Q2 :=
  match dropWs s.data with
  | '-' :: rest => (parseFloatCore rest).map qNeg
  | '+' :: rest => parseFloatCore rest
  | cs => parseFloatCore cs

/-- Prefix test on character lists (String.startsWith, via the character
    data so that concrete evaluation reduces). -/
def listStarts : List Char → List Char → Bool
  | _, [] => true
  | [], _ :: _ => false
  | c :: cs, d :: ds => if c = d then listStarts cs ds else false

def strStarts (s p : String) : Bool := listStarts s.data p.data

def strEnds (s p : String) : Bool := listStarts s.data.reverse p.data.reverse

/-- slice(1, -1): drop the first and last characters. -/
def strSlice1 (s : String) : String := String.mk (s.data.drop 1).dropLast

/-- Drop n leading characters and the final character. -/
def strInner (n : Nat) (s : String) : String := String.mk (s.data.drop n).dropLast

/-- The ISO-8601 prefix test of helpers.ts (regex anchored at the start:
    four digits, dash, two digits, dash, two digits, T, two digits, colon,
    two digits, colon, two digits). -/
def isoStart (s : String) : Bool :=
  match s.data with
  | a :: b :: c :: d :: '-' :: e :: f :: '-' :: g :: h :: 'T' :: i :: j :: ':' :: k :: l :: ':' :: m :: n :: _ =>
    a.isDigit && b.isDigit && c.isDigit && d.isDigit && e.isDigit && f.isDigit &&
      g.isDigit && h.isDigit && i.isDigit && j.isDigit && k.isDigit && l.isDigit &&
      m.isDigit && n.isDigit
  | _ => false

/-- helpers.ts getLiteralValue over a literal raw text.  Branch order follows
    the source: quoted string, booleans, null, datetime literal, bare ISO
    date, guid, decimal number (contains a dot), integer, raw fallback. -/
def literalOfRaw (raw : String) : JsonVal :=
  if strStarts raw "'" ∧ strEnds raw "'" then .jstr (strSlice1 raw)
  else if raw = "true" then .jbool true
  else if raw = "false" then .jbool false
  else if raw = "null" then .jnull
  else if strStarts raw "datetime" then
    -- replace(/datetime'(.+)'/, '$1') then new Date on the result; a
    -- non-matching raw is passed to the Date constructor unchanged and
    -- yields an invalid date
    if strStarts raw "datetime'" ∧ strEnds raw "'" ∧ 11 ≤ raw.data.length then
      .jdate (.parsed (strInner 9 raw))
    else .jdate .invalid
  else if isoStart raw then .jdate (.parsed raw)
  else if strStarts raw "guid" then
    if strStarts raw "guid'" ∧ strEnds raw "'" ∧ 7 ≤ raw.data.length then
      .jstr (strInner 5 raw)
    else .jstr raw
  else if raw.data.contains '.' then
    match parseFloatJS raw with
    | some q => .jnum q
    | none => .jnan
  else
    match parseIntJS raw with
    | some n => .jnum (qOfInt n)
    | none => .jstr raw

/-- helpers.ts getLiteralValue: a node without raw text (or with empty raw)
    resolves to null. -/
def getLiteralValue : Ast → JsonVal
  | .lit raw => if raw = "" then .jnull else literalOfRaw raw
  | _ => .jnull

/-- getLiteralValue of a possibly-missing parameter (undefined resolves to
    null via the missing-node guard). -/
def getLiteralValueOpt : Option Ast → JsonVal
  | some a => getLiteralValue a
  | none => .jnull

/-- The fixed comparison-to-operator symbol table shared by the comparison
    and arithmetic handlers. -/
def operatorMap (ty : String) : Option String :=
  if ty = "EqualsExpression" then some "equals"
  else if ty = "NotEqualsExpression" then some "not"
  else if ty = "GreaterThanExpression" then some "gt"
  else if ty = "GreaterOrEqualsExpression" then some "gte"
  else if ty = "LesserThanExpression" then some "lt"
  else if ty = "LesserOrEqualsExpression" then some "lte"
  else none

def asNum : JsonVal → Option Q2
  | .jnum q => some q
  | _ => none

/-- ToInteger truncation used by Date.UTC (truncates toward zero). -/
def jsTrunc (q : Q2) : Int := if 0 ≤ q.num then qFloor q else qCeil q

/-- Date.UTC(y, m, d) at UTC midnight, as a month index (JS normalises month
    overflow, which the index y*12+m captures directly). -/
def dateUTC (y m d : Q2) : JsDate := .utc (jsTrunc y * 12 + jsTrunc m) (jsTrunc d)

/-- comparison.ts handleArithmeticComparison: solves the comparison for the
    bare field by inverting the arithmetic on the threshold; a not-equals
    comparison emits the nested not/equals form.  The numeric computation is
    modelled on exact rationals; non-numeric operands would propagate NaN in JS and are
    rejected here instead (no theorem reaches that case, nor a division by a
    zero operand, where JS would produce an infinite threshold). -/
def handleArithmeticComparison (cmpTy arithTy : String) (al ar right : Ast) :
    Except String JsonVal := do
  let field ← getFieldName al
  let operand := getLiteralValue ar
  let threshold := getLiteralValue right
  match operatorMap cmpTy with
  | none => .error ("Unsupported arithmetic comparison: " ++ cmpTy)
  | some op =>
    match asNum threshold, asNum operand with
    | some t, some k => do
      let adjusted : Q2 ←
        if arithTy = "MulExpression" then pure (qDiv t k)
        else if arithTy = "DivExpression" then pure (qMul t k)
        else if arithTy = "AddExpression" then pure (qSub t k)
        else if arithTy = "SubExpression" then pure (qAdd t k)
        else .error ("Unsupported arithmetic operation: " ++ arithTy)
      if op = "not" then pure (jobj1 field (jobj1 "not" (jobj1 "equals" (.jnum adjusted))))
      else pure (jobj1 field (jobj1 op (.jnum adjusted)))
    | _, _ => .error "NaN arithmetic is not modelled"

/-- comparison.ts handleYearEq: a half-open UTC range over the whole year.
    A non-numeric year would be coerced by Date.UTC in JS; that coercion is
    not modelled (invalid dates are emitted instead, unreached below). -/
def handleYearEq (ps : AstList) (right : Ast) : Except String JsonVal := do
  let field ← getFieldNameOpt (astParam ps 0)
  let year := getLiteralValue right
  match asNum year with
  | some y =>
    pure (jobj1 field (.jobj (.cons "gte" (.jdate (dateUTC y (qOfInt 0) (qOfInt 1)))
      (.cons "lt" (.jdate (dateUTC (qAdd y (qOfInt 1)) (qOfInt 0) (qOfInt 1))) .nil))))
  | none =>
    pure (jobj1 field (.jobj (.cons "gte" (.jdate .invalid)
      (.cons "lt" (.jdate .invalid) .nil))))

/-- comparison.ts handleMonthEq: extracts field and value, then always fails
    (month extraction needs raw SQL). -/
def handleMonthEq (ps : AstList) (_right : Ast) : Except String JsonVal := do
  let _ ← getFieldNameOpt (astParam ps 0)
  .error "Month extraction requires raw SQL. Use prisma.$queryRaw"

/-- comparison.ts handleDayEq: same shape as the month handler. -/
def handleDayEq (ps : AstList) (_right : Ast) : Except String JsonVal := do
  let _ ← getFieldNameOpt (astParam ps 0)
  .error "Day extraction requires raw SQL. Use prisma.$queryRaw"

/-- comparison.ts handleLengthComparison: always fails with a raw-SQL
    message (the exact interpolated text is abbreviated here; no claim
    inspects it). -/
def handleLengthComparison (ps : AstList) : Except String JsonVal := do
  let field ← getFieldNameOpt (astParam ps 0)
  .error ("Length comparison requires raw SQL: LENGTH(" ++ field ++ ")")

/-- comparison.ts handleMathFunctionComparison: always fails. -/
def handleMathFunctionComparison (ps : AstList) (method : String) :
    Except String JsonVal := do
  let _ ← getFieldNameOpt (astParam ps 0)
  .error ("Math function " ++ method ++ " requires raw SQL implementation")

/-- comparison.ts handleFunctionComparison: dispatch on the method name of
    the left operand.  Note the indexof branch always attaches a mode key:
    the ternary emits the default mode when caseSensitive is truthy and the
    insensitive mode otherwise (also when the option is unset). -/
def handleFunctionComparison (cmpTy : String) (left right : Ast) (opts : Option Bool) :
    Except String JsonVal :=
  match left with
  | .methodCall m ps =>
    if m = "year" then
      if cmpTy = "EqualsExpression" then handleYearEq ps right
      else .error ("Unsupported year comparison: " ++ cmpTy)
    else if m = "month" then
      if cmpTy = "EqualsExpression" then handleMonthEq ps right
      else .error ("Unsupported month comparison: " ++ cmpTy)
    else if m = "day" then
      if cmpTy = "EqualsExpression" then handleDayEq ps right
      else .error ("Unsupported day comparison: " ++ cmpTy)
    else if m = "indexof" then do
      let field ← getFieldNameOpt (astParam ps 0)
      let searchValue := getLiteralValueOpt (astParam ps 1)
      let threshold := getLiteralValue right
      let mode : JsonVal := .jstr (if opts = some true then "default" else "insensitive")
      if cmpTy = "GreaterOrEqualsExpression" ∧ threshold = .jnum (qOfInt 0) then
        pure (jobj1 field (.jobj (.cons "contains" searchValue (.cons "mode" mode .nil))))
      else if cmpTy = "EqualsExpression" ∧ threshold = .jnum (qOfInt (-1)) then
        pure (jobj1 "NOT" (jobj1 field
          (.jobj (.cons "contains" searchValue (.cons "mode" mode .nil)))))
      else .error ("Unsupported indexof comparison: " ++ cmpTy)
    else if m = "length" then handleLengthComparison ps
    else if m = "round" ∨ m = "floor" ∨ m = "ceiling" then
      handleMathFunctionComparison ps m
    else .error ("Unsupported function in comparison: " ++ m)
  | _ => .error "Unsupported function in comparison"

/-- comparison.ts handleComparison: unwrap one layer of parentheses on the
    left; arithmetic left operands go to the arithmetic handler, method-call
    left operands to the function handler; otherwise the basic field
    comparison with the fixed operator table, where a null literal value
    short-circuits to the identity forms (for every operator other than
    equals, the not-null form). -/
def handleComparison (cmpTy : String) (left0 right : Ast) (opts : Option Bool) :
    Except String JsonVal :=
  let left :=
    match left0 with
    | .un "ParenExpression" v => v
    | .un "BoolParenExpression" v => v
    | l => l
  match left with
  | .bin aty al ar =>
    if aty = "MulExpression" ∨ aty = "DivExpression" ∨ aty = "AddExpression" ∨
        aty = "SubExpression" then
      handleArithmeticComparison cmpTy aty al ar right
    else do
      let field ← getFieldName left
      let value := getLiteralValue right
      match operatorMap cmpTy with
      | none => .error ("Unsupported comparison operator: " ++ cmpTy)
      | some op =>
        if value = .jnull then
          if op = "equals" then pure (jobj1 field .jnull)
          else pure (jobj1 field (jobj1 "not" .jnull))
        else pure (jobj1 field (jobj1 op value))
  | .methodCall _ _ => handleFunctionComparison cmpTy left right opts
  | _ => do
    let field ← getFieldName left
    let value := getLiteralValue right
    match operatorMap cmpTy with
    | none => .error ("Unsupported comparison operator: " ++ cmpTy)
    | some op =>
      if value = .jnull then
        if op = "equals" then pure (jobj1 field .jnull)
        else pure (jobj1 field (jobj1 "not" .jnull))
      else pure (jobj1 field (jobj1 op value))

/-- methods.ts handleMethod: unwrap a Common/Paren/BoolParen wrapper once,
    then dispatch on the method name.  contains reads (field, text);
    substringof reads (text, field); startswith/endswith honour a tolower
    wrapper on the field by forcing the insensitive mode; indexof standalone
    behaves like contains.  The insensitive marker is attached exactly when
    the caseSensitive option is explicitly false (tolower override aside). -/
def handleMethod (node : Ast) (opts : Option Bool) : Except String JsonVal :=
  let expr :=
    match node with
    | .un "CommonExpression" v => v
    | .un "ParenExpression" v => v
    | .un "BoolParenExpression" v => v
    | e => e
  match expr with
  | .methodCall m ps =>
    if m = "contains" then do
      let field ← getFieldNameOpt (astParam ps 0)
      let searchValue := getLiteralValueOpt (astParam ps 1)
      let filter : JsonFields :=
        if opts = some false then
          .cons "contains" searchValue (.cons "mode" (.jstr "insensitive") .nil)
        else .cons "contains" searchValue .nil
      pure (.jobj (.cons field (.jobj filter) .nil))
    else if m = "substringof" then do
      let field ← getFieldNameOpt (astParam ps 1)
      let searchValue := getLiteralValueOpt (astParam ps 0)
      let filter : JsonFields :=
        if opts = some false then
          .cons "contains" searchValue (.cons "mode" (.jstr "insensitive") .nil)
        else .cons "contains" searchValue .nil
      pure (.jobj (.cons field (.jobj filter) .nil))
    else if m = "startswith" then do
      let (fieldNode, insensitive) :=
        match astParam ps 0 with
        | some (.methodCall "tolower" ps2) => (astParam ps2 0, true)
        | p0 => (p0, opts = some false)
      let field ← getFieldNameOpt fieldNode
      let prefixVal := getLiteralValueOpt (astParam ps 1)
      let filter : JsonFields :=
        if insensitive then
          .cons "startsWith" prefixVal (.cons "mode" (.jstr "insensitive") .nil)
        else .cons "startsWith" prefixVal .nil
      pure (.jobj (.cons field (.jobj filter) .nil))
    else if m = "endswith" then do
      let (fieldNode, insensitive) :=
        match astParam ps 0 with
        | some (.methodCall "tolower" ps2) => (astParam ps2 0, true)
        | p0 => (p0, opts = some false)
      let field ← getFieldNameOpt fieldNode
      let suffix := getLiteralValueOpt (astParam ps 1)
      let filter : JsonFields :=
        if insensitive then
          .cons "endsWith" suffix (.cons "mode" (.jstr "insensitive") .nil)
        else .cons "endsWith" suffix .nil
      pure (.jobj (.cons field (.jobj filter) .nil))
    else if m = "indexof" then do
      let field ← getFieldNameOpt (astParam ps 0)
      let searchValue := getLiteralValueOpt (astParam ps 1)
      let filter : JsonFields :=
        if opts = some false then
          .cons "contains" searchValue (.cons "mode" (.jstr "insensitive") .nil)
        else .cons "contains" searchValue .nil
      pure (.jobj (.cons field (.jobj filter) .nil))
    else if m = "tolower" ∨ m = "toupper" ∨ m = "trim" then
      .error "String transformation functions should be handled in comparison context"
    else if m = "concat" then
      .error "concat function should be used in comparison context"
    else .error ("Unsupported method: " ++ m)
  | _ => .error "Expected MethodCallExpression"

/-- Literal list of an in-expression mapped through the literal resolver. -/
def litValues : AstList → JsonList
  | .nil => .nil
  | .cons a tl => .cons (getLiteralValue a) (litValues tl)

/-- methods.ts handleInExpression. -/
def handleInExpression (left : Ast) (items : AstList) : Except String JsonVal := do
  let field ← getFieldName left
  pure (jobj1 field (jobj1 "in" (.jarr (litValues items))))

/-- date.ts tryHandleYearMonth: when both sides are equality comparisons on
    year and month calls (in either order), merge into one half-open month
    range.  The field is taken from the year call alone — the month call's
    field is never compared against it.  Thrown field-extraction errors
    propagate (Except layer); a null result means no merge. -/
def tryHandleYearMonth (a b : Ast) : Except String (Option JsonVal) :=
  match a, b with
  | .bin "EqualsExpression" al ar, .bin "EqualsExpression" bl br =>
    match al, bl with
    | .methodCall am aps, .methodCall bm bps =>
      if (am = "year" ∧ bm = "month") ∨ (am = "month" ∧ bm = "year") then do
        let yearPs := if am = "year" then aps else bps
        let yearValue := if am = "year" then getLiteralValue ar else getLiteralValue br
        let monthValue := if am = "month" then getLiteralValue ar else getLiteralValue br
        let field ← getFieldNameOpt (astParam yearPs 0)
        match asNum yearValue, asNum monthValue with
        | some y, some mo =>
          pure (some (jobj1 field (.jobj (.cons "gte" (.jdate (dateUTC y (qSub mo (qOfInt 1)) (qOfInt 1)))
            (.cons "lt" (.jdate (dateUTC y mo (qOfInt 1))) .nil)))))
        | _, _ =>
          pure (some (jobj1 field (.jobj (.cons "gte" (.jdate .invalid)
            (.cons "lt" (.jdate .invalid) .nil)))))
      else pure none
    | _, _ => pure none
  | _, _ => pure none

/-- date.ts tryHandleDateRange: a lower-bound comparison and an upper-bound
    comparison on the same field merge into a single object carrying both
    bounds. -/
def tryHandleDateRange (a b : Ast) : Except String (Option JsonVal) :=
  match a, b with
  | .bin aty al ar, .bin bty bl br =>
    if (aty = "GreaterOrEqualsExpression" ∨ aty = "GreaterThanExpression") ∧
        (bty = "LesserOrEqualsExpression" ∨ bty = "LesserThanExpression") then do
      let aField ← getFieldName al
      let bField ← getFieldName bl
      if aField = bField then
        let startValue := getLiteralValue ar
        let endValue := getLiteralValue br
        let startOp := if aty = "GreaterOrEqualsExpression" then "gte" else "gt"
        let endOp := if bty = "LesserOrEqualsExpression" then "lte" else "lt"
        pure (some (jobj1 aField (.jobj (.cons startOp startValue
          (.cons endOp endValue .nil)))))
      else pure none
    else pure none
  | _, _ => pure none

/-- converter.ts convertNode: the recursive AST lowering dispatch. -/
def convertNode (node : Ast) (opts : Option Bool) : Except String JsonVal :=
  match node with
  | .bin ty l r =>
    if ty = "EqualsExpression" ∨ ty = "NotEqualsExpression" ∨
        ty = "GreaterThanExpression" ∨ ty = "GreaterOrEqualsExpression" ∨
        ty = "LesserThanExpression" ∨ ty = "LesserOrEqualsExpression" then
      handleComparison ty l r opts
    else if ty = "AndExpression" then do
      let ym1 ← tryHandleYearMonth l r
      match ym1 with
      | some w => pure w
      | none => do
        let ym2 ← tryHandleYearMonth r l
        match ym2 with
        | some w => pure w
        | none => do
          let dr1 ← tryHandleDateRange l r
          match dr1 with
          | some w => pure w
          | none => do
            let dr2 ← tryHandleDateRange r l
            match dr2 with
            | some w => pure w
            | none => do
              let lw ← convertNode l opts
              let rw ← convertNode r opts
              pure (jobj1 "AND" (.jarr (.cons lw (.cons rw .nil))))
    else if ty = "OrExpression" then do
      let lw ← convertNode l opts
      let rw ← convertNode r opts
      pure (jobj1 "OR" (.jarr (.cons lw (.cons rw .nil))))
    else .error ("Unsupported AST node type: " ++ ty)
  | .un ty v =>
    if ty = "NotExpression" then do
      let w ← convertNode v opts
      pure (jobj1 "NOT" w)
    else if ty = "CommonExpression" then handleMethod node opts
    else if ty = "ParenExpression" ∨ ty = "BoolParenExpression" then convertNode v opts
    else .error ("Unsupported AST node type: " ++ ty)
  | .methodCall _ _ => handleMethod node opts
  | .inExpr l items => handleInExpression l items
  | .lit _ => .error "Unsupported AST node type: Literal"
  | .ident _ => .error "Unsupported AST node type: ODataIdentifier"

/-- converter.ts convert: the end-to-end pipeline over a raw JS input value.
    The empty/non-string guard returns the empty filter.  parse stands for
    the external primary grammar parser applied to the pre-processed string
    (odataParser.filter composed with preprocessODataFilter), and fb for
    fallbackParser with the same options; both are parameters because the
    parser is an external black-box dependency and the fallback is consulted
    only through this control flow.  The whole primary path — parsing AND
    lowering AND optimization — sits inside one try block, so any of its
    errors diverts to the fallback; only when the fallback also fails is an
    error surfaced, wrapping the primary error message. -/
def convertWith (parse : String → Except String Ast) (fb : String → Except String JsonVal)
    (opts : Option Bool) (input : JsonVal) : Except String JsonVal :=
  match input with
  | .jstr s =>
    if s = "" then .ok (.jobj .nil)
    else
      match (do
        let ast ← parse s
        let result ← convertNode ast opts
        pure (optimizeOrToIn result) : Except String JsonVal) with
      | .ok r => .ok r
      | .error e =>
        match fb s with
        | .ok r => .ok r
        | .error _ => .error ("Failed to parse OData filter: " ++ e)
  | _ => .ok (.jobj .nil)

/-- Math.round(x*100)/100: rounding to two decimals, halves toward
    positive infinity. -/
def round2 (q : Q2) : Q2 := mkQ (qFloor (qAdd (qMul q (qOfInt 100)) (mkQ 1 2))) 100

/-- fallback.ts, arithmetic branch: the computation applied to the captured
    regex groups (field, operator, operand, comparison, target) after
    parseFloat; the surrounding regex plumbing is not itself under any
    claim.  The inverted threshold is rounded to two decimals. -/
def fallbackArithBranch (field : String) (operator : Char) (operandNum targetNum : Q2)
    (comparison : String) : Except String JsonVal := do
  let resultValue : Q2 ←
    if operator = '*' then pure (qDiv targetNum operandNum)
    else if operator = '/' then pure (qMul targetNum operandNum)
    else if operator = '+' then pure (qSub targetNum operandNum)
    else if operator = '-' then pure (qAdd targetNum operandNum)
    else .error ("Unsupported arithmetic operator: " ++ String.mk [operator])
  let prismaOp : Option String :=
    if comparison = "eq" then some "equals"
    else if comparison = "ne" then some "not"
    else if comparison = "gt" then some "gt"
    else if comparison = "ge" then some "gte"
    else if comparison = "lt" then some "lt"
    else if comparison = "le" then some "lte"
    else none
  match prismaOp with
  | none => .error ("Unsupported comparison operator: " ++ comparison)
  | some op => pure (jobj1 field (jobj1 op (.jnum (round2 resultValue))))

/-!
Claim theorems.  Each claim of the specification gets one theorem below
(with a witness when the theorem carries hypotheses, and a counterexample
where the claim fails on the code).
-/

/-- C9: for the empty string and for every non-string input value, convert
    returns the empty filter object and does not throw, for every behaviour
    of the external parser and of the fallback. -/
theorem c9_empty_or_nonstring_input
    (parse : String → Except String Ast) (fb : String → Except String JsonVal)
    (opts : Option Bool) (v : JsonVal) (h : ∀ s, v = .jstr s → s = "") :
    convertWith parse fb opts v = .ok (.jobj .nil) := by
  cases v with
  | jstr s =>
    have hs : s = "" := h s rfl
    simp [convertWith, hs]
  | jnull => rfl
  | jnan => rfl
  | jbool b => rfl
  | jnum q => rfl
  | jdate t => rfl
  | jarr xs => rfl
  | jobj fs => rfl

/-- C9 witness: concrete evaluation at a numeric (non-string) input. -/
theorem c9_witness :
    convertWith (fun _ => .error "no parse") (fun _ => .error "no fallback") none
      (.jnum (qOfInt 0)) = .ok (.jobj .nil) :=
  c9_empty_or_nonstring_input _ _ none (.jnum (qOfInt 0)) (fun s h => by cases h)

/-- C10: substringof takes its arguments in the reverse order of contains —
    substringof(text, field) and contains(field, text) lower to the same
    contains shape, reading the field from the second and first parameter
    respectively. -/
theorem c10_substringof_argument_order (f t : String) :
    handleMethod (.methodCall "substringof"
        (.cons (.lit (String.mk ('\'' :: (t.data ++ ['\''])))) (.cons (.un "FirstMemberExpression" (.ident f)) .nil))) none =
      .ok (jobj1 f (jobj1 "contains" (.jstr t)))
    ∧ handleMethod (.methodCall "contains"
        (.cons (.un "FirstMemberExpression" (.ident f)) (.cons (.lit (String.mk ('\'' :: (t.data ++ ['\''])))) .nil))) none =
      .ok (jobj1 f (jobj1 "contains" (.jstr t))) := by
  have hq : getLiteralValue (.lit (String.mk ('\'' :: (t.data ++ ['\''])))) = .jstr t := by
    have hne : String.mk ('\'' :: (t.data ++ ['\''])) ≠ "" := by
      intro h
      have : ('\'' :: (t.data ++ ['\''])) = ([] : List Char) := congrArg String.data h
      simp at this
    simp only [getLiteralValue, hne, if_false]
    have h1 : strStarts (String.mk ('\'' :: (t.data ++ ['\'']))) "'" = true := by
      simp [strStarts, listStarts]
    have h2 : strEnds (String.mk ('\'' :: (t.data ++ ['\'']))) "'" = true := by
      simp [strEnds, listStarts, List.reverse_cons]
    have h3 : strSlice1 (String.mk ('\'' :: (t.data ++ ['\'']))) = t := by
      simp [strSlice1, List.dropLast_concat]
    simp [literalOfRaw, h1, h2, h3]
  constructor
  · simp [handleMethod, astParam, getLiteralValueOpt, hq, getFieldNameOpt, getFieldName]
    rfl
  · simp [handleMethod, astParam, getLiteralValueOpt, hq, getFieldNameOpt, getFieldName]
    rfl

/-- C5 failing input, evaluated: in comparison position the indexof handler
    always attaches a mode key — with the caseSensitive option unset the
    insensitive marker appears, and with the option explicitly true a mode
    key still appears (carrying the default mode); the repository's own test
    suite asserts that no mode key appears in either situation.  The
    standalone handlers (third conjunct: contains with the option unset)
    do follow the claimed policy. -/
theorem c5_indexof_comparison_mode_bug :
    convertNode (.bin "GreaterOrEqualsExpression"
        (.methodCall "indexof" (.cons (.un "FirstMemberExpression" (.ident "Name"))
          (.cons (.lit "'oh'") .nil)))
        (.lit "0")) none =
      .ok (jobj1 "Name" (.jobj (.cons "contains" (.jstr "oh")
        (.cons "mode" (.jstr "insensitive") .nil))))
    ∧ convertNode (.bin "GreaterOrEqualsExpression"
        (.methodCall "indexof" (.cons (.un "FirstMemberExpression" (.ident "Name"))
          (.cons (.lit "'oh'") .nil)))
        (.lit "0")) (some true) =
      .ok (jobj1 "Name" (.jobj (.cons "contains" (.jstr "oh")
        (.cons "mode" (.jstr "default") .nil))))
    ∧ convertNode (.methodCall "contains" (.cons (.un "FirstMemberExpression" (.ident "Name"))
        (.cons (.lit "'oh'") .nil))) none =
      .ok (jobj1 "Name" (jobj1 "contains" (.jstr "oh"))) :=
  ⟨rfl, rfl, rfl⟩

/-- C6 failing input, evaluated: lowering year(CreatedAt) eq 2023 does emit
    the half-open UTC range over 2023 (first conjunct; month indices 24276
    and 24288 are Jan 2023 and Jan 2024), but the optimizer post-pass then
    rebuilds the bound object from Object.entries, and Object.entries of a
    Date is empty — so the full convert pipeline returns the range with both
    Date bounds replaced by empty objects, not the claimed intact range. -/
theorem c6_year_range_bounds_destroyed :
    convertNode (.bin "EqualsExpression"
        (.methodCall "year" (.cons (.un "FirstMemberExpression" (.ident "CreatedAt")) .nil))
        (.lit "2023")) none =
      .ok (jobj1 "CreatedAt" (.jobj (.cons "gte" (.jdate (.utc 24276 1))
        (.cons "lt" (.jdate (.utc 24288 1)) .nil))))
    ∧ convertWith
        (fun s => if s = "year(CreatedAt) eq 2023" then
          .ok (.bin "EqualsExpression"
            (.methodCall "year" (.cons (.un "FirstMemberExpression" (.ident "CreatedAt")) .nil))
            (.lit "2023"))
          else .error "parse failure")
        (fun _ => .error "fallback failure") none (.jstr "year(CreatedAt) eq 2023") =
      .ok (jobj1 "CreatedAt" (.jobj (.cons "gte" (.jobj .nil)
        (.cons "lt" (.jobj .nil) .nil)))) :=
  ⟨rfl, rfl⟩

/-- C7 failing input, evaluated: the year/month merge never compares the two
    fields, so year(CreatedAt) eq 2023 and month(UpdatedAt) eq 12 merges
    into a December-2023 range on CreatedAt, silently dropping the UpdatedAt
    condition (first conjunct), instead of the claimed AND lowering — under
    which the standalone month side would have surfaced its raw-SQL error
    (second conjunct). -/
theorem c7_year_month_merge_ignores_field :
    convertNode (.bin "AndExpression"
        (.bin "EqualsExpression"
          (.methodCall "year" (.cons (.un "FirstMemberExpression" (.ident "CreatedAt")) .nil))
          (.lit "2023"))
        (.bin "EqualsExpression"
          (.methodCall "month" (.cons (.un "FirstMemberExpression" (.ident "UpdatedAt")) .nil))
          (.lit "12"))) none =
      .ok (jobj1 "CreatedAt" (.jobj (.cons "gte" (.jdate (.utc 24287 1))
        (.cons "lt" (.jdate (.utc 24288 1)) .nil))))
    ∧ convertNode (.bin "EqualsExpression"
        (.methodCall "month" (.cons (.un "FirstMemberExpression" (.ident "UpdatedAt")) .nil))
        (.lit "12")) none =
      .error "Month extraction requires raw SQL. Use prisma.$queryRaw" :=
  ⟨rfl, rfl⟩

/-- C4 counterexample: Age gt null lowers to the not-null identity form, not
    to the claimed ordinary operator form with the gt key. -/
theorem c4_counterexample_gt_null :
    handleComparison "GreaterThanExpression" (.un "FirstMemberExpression" (.ident "Age"))
        (.lit "null") none = .ok (jobj1 "Age" (jobj1 "not" .jnull))
    ∧ jobj1 "Age" (jobj1 "not" .jnull) ≠ jobj1 "Age" (jobj1 "gt" .jnull) :=
  ⟨rfl, by decide⟩

/-- C4 amended: when the left side is a plain field and the right literal
    resolves to null, eq emits the identity form with the bare null, and
    every other comparison operator in the table (ne, gt, ge, lt, le) emits
    the not-null form — the null special case is not limited to eq/ne. -/
theorem c4_null_comparison_amended (f : String) (cmpTy op : String)
    (hop : operatorMap cmpTy = some op) (right : Ast)
    (hr : getLiteralValue right = .jnull) :
    handleComparison cmpTy (.un "FirstMemberExpression" (.ident f)) right none =
      .ok (if cmpTy = "EqualsExpression" then jobj1 f .jnull
           else jobj1 f (jobj1 "not" .jnull)) := by
  unfold operatorMap at hop
  split_ifs at hop with h1 h2 h3 h4 h5 h6
  · subst h1; simp only [handleComparison, getFieldName, hr]; rfl
  · subst h2; simp only [handleComparison, getFieldName, hr]; rfl
  · subst h3; simp only [handleComparison, getFieldName, hr]; rfl
  · subst h4; simp only [handleComparison, getFieldName, hr]; rfl
  · subst h5; simp only [handleComparison, getFieldName, hr]; rfl
  · subst h6; simp only [handleComparison, getFieldName, hr]; rfl

/-- C4 witness: the amended statement applied at Age lt null. -/
theorem c4_amended_witness :
    operatorMap "LesserThanExpression" = some "lt"
    ∧ getLiteralValue (.lit "null") = .jnull
    ∧ handleComparison "LesserThanExpression" (.un "FirstMemberExpression" (.ident "Age"))
        (.lit "null") none = .ok (jobj1 "Age" (jobj1 "not" .jnull)) :=
  ⟨rfl, rfl,
    c4_null_comparison_amended "Age" "LesserThanExpression" "lt" rfl (.lit "null") rfl⟩

/-- C3 counterexample: a filter string that the primary parser successfully
    parses (into a node kind the lowering engine does not support) is
    answered with the fallback parser's output — the lowering error does not
    surface and the fallback is consulted, contrary to the claim.  The parser
    and fallback are the explicit collaborator parameters of the convert
    control flow; the instantiation mirrors the collection-lambda situation,
    which the primary grammar parses but the lowering engine rejects. -/
theorem c3_counterexample_lowering_error_diverts :
    (fun (_ : String) => (.ok (.un "LambdaVariableExpression" (.lit "x")) : Except String Ast))
        "orders/any(o: o/total gt 100)" = .ok (.un "LambdaVariableExpression" (.lit "x"))
    ∧ convertNode (.un "LambdaVariableExpression" (.lit "x")) none =
        .error "Unsupported AST node type: LambdaVariableExpression"
    ∧ convertWith (fun _ => .ok (.un "LambdaVariableExpression" (.lit "x")))
        (fun _ => .ok (jobj1 "orders" (jobj1 "some" (jobj1 "total" (jobj1 "gt" (.jnum (qOfInt 100)))))))
        none (.jstr "orders/any(o: o/total gt 100)") =
      .ok (jobj1 "orders" (jobj1 "some" (jobj1 "total" (jobj1 "gt" (.jnum (qOfInt 100)))))) :=
  ⟨rfl, rfl, rfl⟩

/-- C3 amended: the fallback is bypassed only when the whole primary path
    succeeds; any primary-path error — a parse failure or equally a lowering
    failure on a successfully parsed AST — diverts to the fallback, whose
    success is returned, and only a double failure surfaces an error, which
    wraps the primary message. -/
theorem c3_fallback_on_any_primary_error
    (parse : String → Except String Ast) (fb : String → Except String JsonVal)
    (opts : Option Bool) (s : String) (ast : Ast) (hs : s ≠ "")
    (hp : parse s = .ok ast) :
    (∀ w, convertNode ast opts = .ok w →
      convertWith parse fb opts (.jstr s) = .ok (optimizeOrToIn w))
    ∧ (∀ e, convertNode ast opts = .error e →
      convertWith parse fb opts (.jstr s) =
        match fb s with
        | .ok r => .ok r
        | .error _ => .error ("Failed to parse OData filter: " ++ e)) := by
  constructor
  · intro w hw
    simp [convertWith, hs, hp, hw, Except.bind, bind, Functor.map, Except.map, pure, Except.pure]
  · intro e he
    simp [convertWith, hs, hp, he, Except.bind, bind, Functor.map, Except.map, pure, Except.pure]

/-- C3 amended witness: with a parser that succeeds and a lowering that
    succeeds, the fallback is irrelevant and the optimized lowering is
    returned. -/
theorem c3_amended_witness :
    convertWith
      (fun _ => .ok (.bin "EqualsExpression" (.un "FirstMemberExpression" (.ident "Name"))
        (.lit "'John'")))
      (fun _ => .error "fallback failure") none (.jstr "Name eq 'John'") =
    .ok (jobj1 "Name" (jobj1 "equals" (.jstr "John"))) :=
  (c3_fallback_on_any_primary_error _ _ none "Name eq 'John'"
      (.bin "EqualsExpression" (.un "FirstMemberExpression" (.ident "Name")) (.lit "'John'"))
      (by decide) rfl).1
    (jobj1 "Name" (jobj1 "equals" (.jstr "John"))) rfl

/-- C2: for a comparison field op k cmp T, the primary arithmetic handler
    emits the algebraically inverted threshold — divide by k for multiply,
    multiply for divide, subtract for add, add for subtract — with ne
    producing the nested not/equals form, and the fallback variant computes
    the same inverted threshold but rounds it to two decimals (flat operator
    form).  The multiply case assumes a nonzero operand (JS would produce an
    infinite threshold there). -/
theorem c2_arithmetic_inversion (f : String) (ar right : Ast) (k t : Q2)
    (arithTy : String) (opChar : Char) (cmpTy cmpShort op : String)
    (ha : (arithTy, opChar) ∈ [("MulExpression", '*'), ("DivExpression", '/'),
      ("AddExpression", '+'), ("SubExpression", '-')])
    (hc : (cmpTy, cmpShort) ∈ [("EqualsExpression", "eq"), ("NotEqualsExpression", "ne"),
      ("GreaterThanExpression", "gt"), ("GreaterOrEqualsExpression", "ge"),
      ("LesserThanExpression", "lt"), ("LesserOrEqualsExpression", "le")])
    (hop : operatorMap cmpTy = some op)
    (hk : getLiteralValue ar = .jnum k) (ht : getLiteralValue right = .jnum t)
    (hk0 : arithTy = "MulExpression" → k ≠ qOfInt 0) :
    let inverted : Q2 :=
      if arithTy = "MulExpression" then qDiv t k
      else if arithTy = "DivExpression" then qMul t k
      else if arithTy = "AddExpression" then qSub t k
      else qAdd t k
    handleArithmeticComparison cmpTy arithTy (.un "FirstMemberExpression" (.ident f)) ar right =
      .ok (if cmpTy = "NotEqualsExpression" then
          jobj1 f (jobj1 "not" (jobj1 "equals" (.jnum inverted)))
        else jobj1 f (jobj1 op (.jnum inverted)))
    ∧ fallbackArithBranch f opChar k t cmpShort =
      .ok (jobj1 f (jobj1 op (.jnum (round2 inverted)))) := by
  intro inverted
  fin_cases ha <;> fin_cases hc <;>
    (injection hop with hopv; subst hopv) <;>
    constructor <;>
      simp [handleArithmeticComparison, fallbackArithBranch, getFieldName, hk, ht,
        inverted, operatorMap, asNum, Except.bind, bind, pure, Except.pure]

/-- C2 witness: Price * 1.1 gt 100 — the primary handler yields the exact
    threshold 1000/11, the fallback 90.91. -/
theorem c2_witness :
    handleArithmeticComparison "GreaterThanExpression" "MulExpression"
        (.un "FirstMemberExpression" (.ident "Price")) (.lit "1.1") (.lit "100") =
      .ok (jobj1 "Price" (jobj1 "gt" (.jnum (mkQ 1000 11))))
    ∧ fallbackArithBranch "Price" '*' (mkQ 11 10) (qOfInt 100) "gt" =
      .ok (jobj1 "Price" (jobj1 "gt" (.jnum (mkQ 9091 100)))) := by
  have h := c2_arithmetic_inversion "Price" (.lit "1.1") (.lit "100") (mkQ 11 10)
    (qOfInt 100) "MulExpression" '*' "GreaterThanExpression" "gt" "gt"
    (by decide) (by decide) rfl rfl rfl (fun _ => by decide)
  exact ⟨h.1, h.2⟩

/-!
Claim C1 machinery: an independent, spec-side description of the OR-to-IN
rewrite.  The nested-OR flattening is the collectConditions walk (shared
with the source translation above — the claim describes that walk verbatim);
the verified content is the leaf-shape test, the same-field requirement, the
deduplication and the replacement rule, which the source implements through
a mutable per-field record and is here specified directly.
-/

def jlAll (p : JsonVal → Bool) : JsonList → Bool
  | .nil => true
  | .cons v tl => p v && jlAll p tl

/-- The claim's leaf shape: a single-field object whose value is an object
    carrying an equals binding (one value) or an in binding with a list of
    values (equals takes precedence when both are present, as in the code). -/
def leafEqIn : JsonVal → Option (String × JsonList)
  | .jobj (.cons f (.jobj ops) .nil) =>
    (match getProp ops "equals" with
     | some e => some (f, .cons e .nil)
     | none =>
       match getProp ops "in" with
       | some (.jarr vs) => some (f, vs)
       | _ => none)
  | _ => none

/-- Leaves on which the JS source is total and agrees with the claim's
    shapes: plain objects, and when a single-field object value carries an
    in binding without an equals one, that binding holds an array (a string
    would be spread character-wise by JS and anything else would throw). -/
def leafTame : JsonVal → Bool
  | .jobj (.cons _ (.jobj ops) .nil) =>
    (match getProp ops "equals" with
     | some _ => true
     | none =>
       match getProp ops "in" with
       | some (.jarr _) => true
       | some _ => false
       | none => true)
  | .jobj _ => true
  | _ => false

/-- Per-leaf contributions (field, values) of a leaf list, failing when any
    leaf fails the claim's shape. -/
def contribs : JsonList → Option (List (String × JsonList))
  | .nil => some []
  | .cons l tl =>
    match leafEqIn l with
    | some p => (contribs tl).map (fun ps => p :: ps)
    | none => none

/-- Values of the remaining leaves, required to sit on the given field. -/
def sameFieldVals (f : String) : JsonList → Option JsonList
  | .nil => some .nil
  | .cons l tl =>
    match leafEqIn l with
    | some (g, vs) => if g = f then (sameFieldVals f tl).map (jlAppend vs) else none
    | none => none

/-- The claim's OR-rewrite data: flatten the nested OR lists to leaves,
    require every leaf to match the equals/in shape on one common field, and
    return that field with the deduplicated value list. -/
def specOrRewrite (conds : JsonList) : Option (String × JsonList) :=
  match collectList conds with
  | .nil => none
  | .cons l tl =>
    match leafEqIn l with
    | some (f, vs) =>
      match sameFieldVals f tl with
      | some rest => some (f, dedupJ (jlAppend vs rest))
      | none => none
    | none => none

def recStep (a : List (String × JsonList)) (p : String × JsonList) :
    List (String × JsonList) :=
  recAdd a p.1 p.2

def allSameF (f : String) (ps : List (String × JsonList)) : Bool :=
  ps.all (fun p => decide (p.1 = f))

def concatVals : List (String × JsonList) → JsonList
  | [] => .nil
  | p :: ps => jlAppend p.2 (concatVals ps)

theorem jlAppend_assoc : (a b c : JsonList) →
    jlAppend (jlAppend a b) c = jlAppend a (jlAppend b c)
  | .nil, _, _ => rfl
  | .cons v tl, b, c => by simp [jlAppend, jlAppend_assoc tl b c]

/-- One step of the classification loop on a tame leaf: failure exactly when
    the leaf fails the claim's shape, otherwise the contribution is recorded
    and the loop continues. -/
theorem classify_step (c : JsonVal) (hc : leafTame c = true) (tl : JsonList)
    (acc : List (String × JsonList)) :
    classifyConds (.cons c tl) acc =
      match leafEqIn c with
      | none => none
      | some p => classifyConds tl (recAdd acc p.1 p.2) := by
  cases c with
  | jnull => simp [leafTame] at hc
  | jnan => simp [leafTame] at hc
  | jbool b => simp [leafTame] at hc
  | jnum q => simp [leafTame] at hc
  | jstr s => simp [leafTame] at hc
  | jdate t => simp [leafTame] at hc
  | jarr xs => simp [leafTame] at hc
  | jobj fs =>
    cases fs with
    | nil => simp [classifyConds, singleProp, leafEqIn]
    | cons k v fs2 =>
      cases fs2 with
      | cons k2 v2 fs3 => simp [classifyConds, singleProp, leafEqIn]
      | nil =>
        cases v with
        | jobj ops =>
          simp only [classifyConds, singleProp, truthyObject, getPropV, leafEqIn, if_true]
          cases he : getProp ops "equals" with
          | some e => simp [he]
          | none =>
            cases hi : getProp ops "in" with
            | none => simp [he, hi]
            | some w =>
              cases w with
              | jarr vs => simp [he, hi, spreadIn]
              | jobj o2 => simp [leafTame, he, hi] at hc
              | jstr s2 => simp [leafTame, he, hi] at hc
              | jnull => simp [leafTame, he, hi] at hc
              | jnan => simp [leafTame, he, hi] at hc
              | jbool b2 => simp [leafTame, he, hi] at hc
              | jnum q2 => simp [leafTame, he, hi] at hc
              | jdate t2 => simp [leafTame, he, hi] at hc
        | jarr xs => simp [classifyConds, singleProp, truthyObject, getPropV, leafEqIn]
        | jdate t => simp [classifyConds, singleProp, truthyObject, getPropV, leafEqIn]
        | jnull => simp [classifyConds, singleProp, truthyObject, leafEqIn]
        | jnan => simp [classifyConds, singleProp, truthyObject, leafEqIn]
        | jbool b2 => simp [classifyConds, singleProp, truthyObject, leafEqIn]
        | jnum q2 => simp [classifyConds, singleProp, truthyObject, leafEqIn]
        | jstr s2 => simp [classifyConds, singleProp, truthyObject, leafEqIn]

/-- On tame leaves the source's classification loop computes exactly the
    fold of the per-leaf contributions over the field record. -/
theorem classify_eq_contribs : (ls : JsonList) → (acc : List (String × JsonList)) →
    jlAll leafTame ls = true →
    classifyConds ls acc =
      (match contribs ls with
       | none => none
       | some ps => some (ps.foldl recStep acc))
  | .nil, _, _ => rfl
  | .cons c tl, acc, h => by
    have hca : leafTame c = true ∧ jlAll leafTame tl = true := by
      simpa [jlAll, Bool.and_eq_true] using h
    obtain ⟨hc, htl⟩ := hca
    rw [classify_step c hc tl acc]
    cases hle : leafEqIn c with
    | none => simp [contribs, hle]
    | some p =>
      change classifyConds tl (recAdd acc p.1 p.2) = _
      rw [classify_eq_contribs tl (recAdd acc p.1 p.2) htl]
      cases hct : contribs tl <;> simp [contribs, hle, hct, recStep]

theorem jlAppend_nil : (a : JsonList) → jlAppend a .nil = a
  | .nil => rfl
  | .cons v tl => by simp [jlAppend, jlAppend_nil tl]

theorem recAdd_same (f : String) (ws vs : JsonList) :
    recAdd [(f, ws)] f vs = [(f, jlAppend ws vs)] := by
  simp [recAdd]

theorem recAdd_len : (a : List (String × JsonList)) → (f : String) → (vs : JsonList) →
    a.length ≤ (recAdd a f vs).length
  | [], _, _ => by simp [recAdd]
  | (g, ws) :: tl, f, vs => by
    by_cases h : g = f
    · simp [recAdd, h]
    · simpa [recAdd, h] using recAdd_len tl f vs

theorem fold_len : (ps : List (String × JsonList)) → (a : List (String × JsonList)) →
    a.length ≤ (ps.foldl recStep a).length
  | [], _ => le_refl _
  | p :: ps, a =>
    le_trans (recAdd_len a p.1 p.2) (fold_len ps (recStep a p))

theorem fold_single_same : (ps : List (String × JsonList)) → (f : String) → (cur : JsonList) →
    allSameF f ps = true →
    ps.foldl recStep [(f, cur)] = [(f, jlAppend cur (concatVals ps))]
  | [], f, cur, _ => by simp [concatVals, jlAppend_nil]
  | (g, ws) :: ps, f, cur, h => by
    have hg : g = f := by
      have := h
      simp [allSameF] at this
      exact this.1
    have hps : allSameF f ps = true := by
      have := h
      simp [allSameF] at this
      simpa [allSameF] using this.2
    subst hg
    simp only [List.foldl_cons, recStep]
    rw [recAdd_same, fold_single_same ps g (jlAppend cur ws) hps, jlAppend_assoc]
    simp [concatVals]

theorem fold_single_diff : (ps : List (String × JsonList)) → (f : String) → (cur : JsonList) →
    allSameF f ps = false → ∀ g ws, ps.foldl recStep [(f, cur)] ≠ [(g, ws)]
  | [], f, cur, h => by simp [allSameF] at h
  | (g0, ws0) :: ps, f, cur, h => by
    intro g ws
    by_cases hg : g0 = f
    · have hps : allSameF f ps = false := by
        simpa [allSameF, hg] using h
      simp only [List.foldl_cons, recStep, hg]
      rw [recAdd_same]
      exact fold_single_diff ps f (jlAppend cur ws0) hps g ws
    · simp only [List.foldl_cons, recStep]
      have htwo : recAdd [(f, cur)] g0 ws0 = [(f, cur), (g0, ws0)] := by
        simp [recAdd, Ne.symm hg]
      rw [htwo]
      intro hcontra
      have hlen := fold_len ps [(f, cur), (g0, ws0)]
      rw [hcontra] at hlen
      simp at hlen

theorem sameFieldVals_eq : (f : String) → (tl : JsonList) →
    sameFieldVals f tl =
      (match contribs tl with
       | none => none
       | some ps => if allSameF f ps then some (concatVals ps) else none)
  | _, .nil => by simp [sameFieldVals, contribs, allSameF, concatVals]
  | f, .cons l tl => by
    simp only [sameFieldVals, contribs]
    cases hle : leafEqIn l with
    | none => simp
    | some p =>
      obtain ⟨g, vs⟩ := p
      by_cases hg : g = f
      · subst hg
        simp only [if_pos rfl]
        rw [sameFieldVals_eq g tl]
        cases hct : contribs tl with
        | none => simp
        | some ps =>
          by_cases hall : ps.all (fun p => decide (p.1 = g)) = true
          · simp [allSameF, concatVals, Option.map, List.all_cons, hall]
          · simp [allSameF, concatVals, Option.map, List.all_cons, hall]
      · simp only [if_neg hg]
        cases hct : contribs tl with
        | none => simp
        | some ps => simp [allSameF, hg]

/-- On tame leaf sets, the source's flattenOrConditions agrees with the
    spec-side description of the rewrite data. -/
theorem flatten_eq_spec (conds : JsonList)
    (h : jlAll leafTame (collectList conds) = true) :
    flattenOrConditions conds = specOrRewrite conds := by
  unfold flattenOrConditions specOrRewrite
  rw [classify_eq_contribs (collectList conds) [] h]
  cases hcl : collectList conds with
  | nil => simp [contribs]
  | cons l tl =>
    cases hle : leafEqIn l with
    | none => simp [contribs, hle]
    | some p =>
      obtain ⟨f, vs⟩ := p
      simp only [hle]
      rw [sameFieldVals_eq f tl]
      cases hct : contribs tl with
      | none => simp [contribs, hle, hct]
      | some ps =>
        simp only [contribs, hle, hct, Option.map, List.foldl_cons, recStep]
        have h0 : recAdd [] f vs = [(f, vs)] := rfl
        rw [h0]
        by_cases hall : allSameF f ps = true
        · rw [fold_single_same ps f vs hall]
          simp [hall]
        · rw [Bool.not_eq_true] at hall
          cases hres : ps.foldl recStep [(f, vs)] with
          | nil => simp [hall]
          | cons q qs =>
            cases qs with
            | nil =>
              exact absurd hres (by
                obtain ⟨g, ws⟩ := q
                exact fold_single_diff ps f vs hall g ws)
            | cons q2 qs2 => simp [hall]

/-!
Claim C8 machinery.  The optimizer is not idempotent on arbitrary filter
objects (see the counterexample), so the amended claim restricts to
well-formed filter objects: AND/OR keys hold arrays of well-formed objects,
NOT holds a well-formed object, and every other key is a field key — not
named equals or in — holding null, a scalar, or an operator object whose
bounds are scalars (the in operator holding an array of scalars).
-/

/-- Scalar (non-object) JS values; NaN included (typeof number). -/
def scalarJ : JsonVal → Bool
  | .jnull => true
  | .jnan => true
  | .jbool _ => true
  | .jnum _ => true
  | .jstr _ => true
  | _ => false

def allScalar : JsonList → Bool
  | .nil => true
  | .cons v tl => scalarJ v && allScalar tl

def scalarArr : JsonVal → Bool
  | .jarr xs => allScalar xs
  | _ => false

mutual

def wfV : JsonVal → Bool
  | .jobj fs => wfFields fs
  | _ => false

def wfFields : JsonFields → Bool
  | .nil => true
  | .cons k v tl =>
    (if k = "AND" ∨ k = "OR" then wfCombArr v
     else if k = "NOT" then wfV v
     else decide (k ≠ "equals") && decide (k ≠ "in") && wfFieldVal v) && wfFields tl

def wfCombArr : JsonVal → Bool
  | .jarr xs => wfObjList xs
  | _ => false

def wfObjList : JsonList → Bool
  | .nil => true
  | .cons v tl => wfV v && wfObjList tl

def wfFieldVal : JsonVal → Bool
  | .jobj ops => wfOps ops
  | v => scalarJ v

def wfOps : JsonFields → Bool
  | .nil => true
  | .cons k v tl => (if k = "in" then scalarArr v else scalarJ v) && wfOps tl

end

/-- Scalars are fixed by the optimizer (the typeof guard). -/
theorem opt_scalar (v : JsonVal) (h : scalarJ v = true) : optimizeOrToIn v = v := by
  cases v <;> simp_all [scalarJ, optimizeOrToIn]

/-- Lists of scalars are fixed elementwise. -/
theorem optEach_scalar : (xs : JsonList) → allScalar xs = true → optEach xs = xs
  | .nil, _ => rfl
  | .cons v tl, h => by
    have hv : scalarJ v = true := by
      have := h; simp [allScalar, Bool.and_eq_true] at this; exact this.1
    have htl : allScalar tl = true := by
      have := h; simp [allScalar, Bool.and_eq_true] at this; exact this.2
    simp [optEach, opt_scalar v hv, optEach_scalar tl htl]

/-- The per-entry transformation performed by the generic recursion of the
    optimizer (the loop body over Object.entries). -/
def optEntry : JsonVal → JsonVal
  | .jarr xs => .jarr (optEach xs)
  | .jobj fs => optimizeOrToIn (.jobj fs)
  | .jdate t => optimizeOrToIn (.jdate t)
  | v => v

theorem optFields_cons (k : String) (v : JsonVal) (tl : JsonFields) :
    optFields (.cons k v tl) = .cons k (optEntry v) (optFields tl) := by
  cases v <;> rfl

theorem getProp_optFields : (fs : JsonFields) → (k : String) →
    getProp (optFields fs) k = (getProp fs k).map optEntry
  | .nil, _ => rfl
  | .cons k0 v tl, k => by
    rw [optFields_cons]
    by_cases h : k0 = k <;> simp [getProp, h, getProp_optFields tl k]

theorem getProp_wfOps : (ops : JsonFields) → wfOps ops = true → (k : String) →
    (v : JsonVal) → getProp ops k = some v →
    (if k = "in" then scalarArr v else scalarJ v) = true
  | .cons k0 v0 tl, h, k, v, hg => by
    have hparts : (if k0 = "in" then scalarArr v0 else scalarJ v0) = true ∧ wfOps tl = true := by
      simpa [wfOps, Bool.and_eq_true] using h
    by_cases he : k0 = k
    · subst he
      have hv : v0 = v := by simpa [getProp] using hg
      subst hv
      exact hparts.1
    · have hg2 : getProp tl k = some v := by simpa [getProp, he] using hg
      exact getProp_wfOps tl hparts.2 k v hg2

/-- A well-formed operator object is fixed by the optimizer: its OR entry
    (if any) is a scalar, so the rewrite branch is skipped, and the generic
    recursion keeps every scalar or scalar-array bound. -/
theorem optFields_wfOps : (ops : JsonFields) → wfOps ops = true → optFields ops = ops
  | .nil, _ => rfl
  | .cons k v tl, h => by
    have hparts : (if k = "in" then scalarArr v = true else scalarJ v = true) ∧ wfOps tl = true := by
      have h2 : (if k = "in" then scalarArr v else scalarJ v) = true ∧ wfOps tl = true := by
        simpa [wfOps, Bool.and_eq_true] using h
      refine ⟨?_, h2.2⟩
      by_cases hk : k = "in" <;> simp_all
    rw [optFields_cons, optFields_wfOps tl hparts.2]
    have hvfix : optEntry v = v := by
      by_cases hk : k = "in"
      · have hsa : scalarArr v = true := by have := hparts.1; simp_all
        cases v <;> simp_all [scalarArr, optEntry, optEach_scalar]
      · have hs : scalarJ v = true := by have := hparts.1; simp_all
        cases v <;> simp_all [scalarJ, optEntry]
    rw [hvfix]

/-- A well-formed operator object is fixed by the whole optimizer call. -/
theorem opt_wfOps (ops : JsonFields) (h : wfOps ops = true) :
    optimizeOrToIn (.jobj ops) = .jobj ops := by
  cases hOR : getProp ops "OR" with
  | none => simp [optimizeOrToIn, hOR, optFields_wfOps ops h]
  | some w =>
    have hw : scalarJ w = true := by
      have := getProp_wfOps ops h "OR" w hOR
      simpa using this
    cases w <;> simp_all [scalarJ, optimizeOrToIn, hOR, optFields_wfOps ops h]

/-- A well-formed field value (scalar or operator object) is fixed. -/
theorem opt_wfFieldVal (v : JsonVal) (h : wfFieldVal v = true) :
    optimizeOrToIn v = v := by
  cases v with
  | jobj ops => exact opt_wfOps ops (by simpa [wfFieldVal] using h)
  | jnull => rfl
  | jnan => rfl
  | jbool b => rfl
  | jnum q => rfl
  | jstr s => rfl
  | jdate t => simp [wfFieldVal, scalarJ] at h
  | jarr xs => simp [wfFieldVal, scalarJ] at h

theorem optEntry_wfFieldVal (v : JsonVal) (h : wfFieldVal v = true) :
    optEntry v = v := by
  cases v with
  | jobj ops => simpa [optEntry] using opt_wfFieldVal (.jobj ops) h
  | jnull => rfl
  | jnan => rfl
  | jbool b => rfl
  | jnum q => rfl
  | jstr s => rfl
  | jdate t => simp [wfFieldVal, scalarJ] at h
  | jarr xs => simp [wfFieldVal, scalarJ] at h

/-- Splitting a well-formed field entry into its per-key fact and the rest. -/
theorem wfFields_split (k : String) (v : JsonVal) (tl : JsonFields)
    (h : wfFields (.cons k v tl) = true) :
    (if k = "AND" ∨ k = "OR" then wfCombArr v = true
     else if k = "NOT" then wfV v = true
     else (k ≠ "equals" ∧ k ≠ "in") ∧ wfFieldVal v = true) ∧ wfFields tl = true := by
  have h2 : ((if k = "AND" ∨ k = "OR" then wfCombArr v
      else if k = "NOT" then wfV v
      else decide (k ≠ "equals") && decide (k ≠ "in") && wfFieldVal v) = true)
      ∧ wfFields tl = true := by
    simpa [wfFields, Bool.and_eq_true] using h
  refine ⟨?_, h2.2⟩
  have h1 := h2.1
  by_cases hAO : k = "AND" ∨ k = "OR"
  · simpa [hAO] using h1
  · by_cases hN : k = "NOT"
    · simpa [hAO, hN] using h1
    · have := h1
      simp [hAO, hN, Bool.and_eq_true] at this
      simp [hAO, hN]
      exact ⟨⟨this.1.1, this.1.2⟩, this.2⟩

/-- No well-formed object has an equals or in key (those names are reserved
    operator names, excluded for field keys and distinct from AND/OR/NOT). -/
theorem wfFields_no_eq : (fs : JsonFields) → wfFields fs = true →
    getProp fs "equals" = none ∧ getProp fs "in" = none
  | .nil, _ => ⟨rfl, rfl⟩
  | .cons k v tl, h => by
    obtain ⟨hk, htl⟩ := wfFields_split k v tl h
    have ih := wfFields_no_eq tl htl
    by_cases hAO : k = "AND" ∨ k = "OR"
    · cases hAO with
      | inl h1 => subst h1; simpa [getProp] using ih
      | inr h1 => subst h1; simpa [getProp] using ih
    · by_cases hN : k = "NOT"
      · subst hN; simpa [getProp] using ih
      · have hne : k ≠ "equals" ∧ k ≠ "in" := by
          simp [hAO, hN] at hk
          exact hk.1
        simp [getProp, hne.1, hne.2, ih]

/-- Under well-formedness, when there is no OR property the collector finds
    no OR entry either. -/
theorem collectOr_none : (fs : JsonFields) → getProp fs "OR" = none →
    collectOr fs = none
  | .nil, _ => rfl
  | .cons k v tl, hg => by
    by_cases hOR : k = "OR"
    · rw [hOR] at hg; simp [getProp] at hg
    · have hg2 : getProp tl "OR" = none := by simpa [getProp, hOR] using hg
      have ih := collectOr_none tl hg2
      rw [collectOr.eq_def]
      simp only []
      rw [if_neg hOR]
      exact ih
termination_by fs _ => sizeOf fs

/-- When the OR property holds an array, the collector descends into it. -/
theorem collectOr_some : (fs : JsonFields) → (xs : JsonList) →
    getProp fs "OR" = some (.jarr xs) → collectOr fs = some (collectList xs)
  | .cons k v tl, xs, hg => by
    by_cases hOR : k = "OR"
    · have hv : v = .jarr xs := by rw [hOR] at hg; simpa [getProp] using hg
      rw [collectOr.eq_def]
      simp only []
      rw [if_pos hOR, hv]
    · have hg2 : getProp tl "OR" = some (.jarr xs) := by simpa [getProp, hOR] using hg
      have ih := collectOr_some tl xs hg2
      rw [collectOr.eq_def]
      simp only []
      rw [if_neg hOR]
      exact ih
termination_by fs xs _ => sizeOf fs

/-- The OR entry of a well-formed object is an array of well-formed
    objects. -/
theorem wfFields_OR : (fs : JsonFields) → wfFields fs = true →
    (v : JsonVal) → getProp fs "OR" = some v →
    ∃ xs, v = .jarr xs ∧ wfObjList xs = true
  | .cons k v0 tl, h, v, hg => by
    obtain ⟨hk, htl⟩ := wfFields_split k v0 tl h
    by_cases hOR : k = "OR"
    · have hv : v0 = v := by rw [hOR] at hg; simpa [getProp] using hg
      have harr : wfCombArr v = true := by
        rw [← hv]
        rw [hOR] at hk
        simpa using hk
      clear hk hg hv h
      cases v with
      | jarr xs => exact ⟨xs, rfl, by simpa [wfCombArr] using harr⟩
      | jnull => simp [wfCombArr] at harr
      | jnan => simp [wfCombArr] at harr
      | jbool b => simp [wfCombArr] at harr
      | jnum q => simp [wfCombArr] at harr
      | jstr s => simp [wfCombArr] at harr
      | jdate t => simp [wfCombArr] at harr
      | jobj fs2 => simp [wfCombArr] at harr
    · have hg2 : getProp tl "OR" = some v := by simpa [getProp, hOR] using hg
      exact wfFields_OR tl htl v hg2
termination_by fs _ v _ => sizeOf fs

theorem wfObjList_split (v : JsonVal) (tl : JsonList)
    (h : wfObjList (.cons v tl) = true) : wfV v = true ∧ wfObjList tl = true := by
  simpa [wfObjList, Bool.and_eq_true] using h

theorem wfObjList_append : (a b : JsonList) → wfObjList a = true → wfObjList b = true →
    wfObjList (jlAppend a b) = true
  | .nil, _, _, hb => hb
  | .cons v tl, b, ha, hb => by
    obtain ⟨hv, htl⟩ := wfObjList_split v tl ha
    simp [jlAppend, wfObjList, hv, wfObjList_append tl b htl hb]

theorem sizeOf_getProp : (fs : JsonFields) → (k : String) → (v : JsonVal) →
    getProp fs k = some v → sizeOf v < sizeOf fs
  | .cons k0 v0 tl, k, v, hg => by
    by_cases h : k0 = k
    · have hv : v0 = v := by rw [h] at hg; simpa [getProp] using hg
      subst hv
      simp
      omega
    · have hg2 : getProp tl k = some v := by simpa [getProp, h] using hg
      have := sizeOf_getProp tl k v hg2
      simp
      omega

/-- A well-formed object that is a good leaf for the rewrite carries a field
    key distinct from every reserved name, and only scalar values. -/
theorem wf_leafEqIn (l : JsonVal) (hwf : wfV l = true) (f : String) (vs : JsonList)
    (hle : leafEqIn l = some (f, vs)) :
    (f ≠ "AND" ∧ f ≠ "OR" ∧ f ≠ "NOT" ∧ f ≠ "equals" ∧ f ≠ "in")
    ∧ allScalar vs = true := by
  cases l with
  | jobj fs =>
    cases fs with
    | nil => simp [leafEqIn] at hle
    | cons k v fs2 =>
      cases fs2 with
      | cons k2 v2 fs3 => simp [leafEqIn] at hle
      | nil =>
        cases v with
        | jobj ops =>
          have hwff : wfFields (.cons k (.jobj ops) .nil) = true := by
            simpa [wfV] using hwf
          obtain ⟨hk, _⟩ := wfFields_split k (.jobj ops) .nil hwff
          by_cases hAO : k = "AND" ∨ k = "OR"
          · rw [if_pos hAO] at hk
            simp [wfCombArr] at hk
          · by_cases hN : k = "NOT"
            · rw [if_neg hAO, if_pos hN] at hk
              have hops : wfFields ops = true := by simpa [wfV] using hk
              obtain ⟨he, hi⟩ := wfFields_no_eq ops hops
              simp [leafEqIn, he, hi] at hle
            · rw [if_neg hAO, if_neg hN] at hk
              obtain ⟨⟨hne, hni⟩, hfv⟩ := hk
              have hops : wfOps ops = true := by simpa [wfFieldVal] using hfv
              have hkres : k ≠ "AND" ∧ k ≠ "OR" ∧ k ≠ "NOT" ∧ k ≠ "equals" ∧ k ≠ "in" := by
                push_neg at hAO
                exact ⟨hAO.1, hAO.2, hN, hne, hni⟩
              cases he : getProp ops "equals" with
              | some e =>
                have hfe : f = k ∧ vs = .cons e .nil := by
                  rw [leafEqIn, he] at hle
                  have := hle
                  simp at this
                  exact ⟨this.1.symm, this.2.symm⟩
                have hse : scalarJ e = true := by
                  have := getProp_wfOps ops hops "equals" e he
                  simpa using this
                refine ⟨hfe.1 ▸ hkres, ?_⟩
                rw [hfe.2]
                simp [allScalar, hse]
              | none =>
                cases hi : getProp ops "in" with
                | none => simp [leafEqIn, he, hi] at hle
                | some w =>
                  cases w with
                  | jarr vs0 =>
                    have hfe : f = k ∧ vs = vs0 := by
                      rw [leafEqIn, he, hi] at hle
                      have := hle
                      simp at this
                      exact ⟨this.1.symm, this.2.symm⟩
                    have hsa : allScalar vs0 = true := by
                      have := getProp_wfOps ops hops "in" (.jarr vs0) hi
                      simpa [scalarArr] using this
                    exact ⟨hfe.1 ▸ hkres, hfe.2 ▸ hsa⟩
                  | jobj o2 => simp [leafEqIn, he, hi] at hle
                  | jstr s2 => simp [leafEqIn, he, hi] at hle
                  | jnull => simp [leafEqIn, he, hi] at hle
                  | jnan => simp [leafEqIn, he, hi] at hle
                  | jbool b2 => simp [leafEqIn, he, hi] at hle
                  | jnum q2 => simp [leafEqIn, he, hi] at hle
                  | jdate t2 => simp [leafEqIn, he, hi] at hle
        | jarr xs => simp [leafEqIn] at hle
        | jdate t => simp [leafEqIn] at hle
        | jnull => simp [leafEqIn] at hle
        | jnan => simp [leafEqIn] at hle
        | jbool b => simp [leafEqIn] at hle
        | jnum q => simp [leafEqIn] at hle
        | jstr s => simp [leafEqIn] at hle
  | jnull => simp [wfV] at hwf
  | jnan => simp [wfV] at hwf
  | jbool b => simp [wfV] at hwf
  | jnum q => simp [wfV] at hwf
  | jstr s => simp [wfV] at hwf
  | jdate t => simp [wfV] at hwf
  | jarr xs => simp [wfV] at hwf

/-- Well-formed objects are tame leaves (the JS source is total on them). -/
theorem wf_leafTame (l : JsonVal) (hwf : wfV l = true) : leafTame l = true := by
  cases l with
  | jobj fs =>
    cases fs with
    | nil => rfl
    | cons k v fs2 =>
      cases fs2 with
      | cons k2 v2 fs3 => cases v <;> rfl
      | nil =>
        cases v with
        | jobj ops =>
          have hwff : wfFields (.cons k (.jobj ops) .nil) = true := by
            simpa [wfV] using hwf
          obtain ⟨hk, _⟩ := wfFields_split k (.jobj ops) .nil hwff
          cases he : getProp ops "equals" with
          | some e => simp [leafTame, he]
          | none =>
            cases hi : getProp ops "in" with
            | none => simp [leafTame, he, hi]
            | some w =>
              by_cases hAO : k = "AND" ∨ k = "OR"
              · rw [if_pos hAO] at hk
                simp [wfCombArr] at hk
              · by_cases hN : k = "NOT"
                · rw [if_neg hAO, if_pos hN] at hk
                  have hops : wfFields ops = true := by simpa [wfV] using hk
                  obtain ⟨_, hi2⟩ := wfFields_no_eq ops hops
                  rw [hi] at hi2
                  cases hi2
                · rw [if_neg hAO, if_neg hN] at hk
                  obtain ⟨_, hfv⟩ := hk
                  have hops : wfOps ops = true := by simpa [wfFieldVal] using hfv
                  have hsa : scalarArr w = true := by
                    have := getProp_wfOps ops hops "in" w hi
                    simpa using this
                  cases w <;> simp_all [scalarArr, leafTame, he, hi]
        | jarr xs => rfl
        | jdate t => rfl
        | jnull => rfl
        | jnan => rfl
        | jbool b => rfl
        | jnum q => rfl
        | jstr s => rfl
  | jnull => simp [wfV] at hwf
  | jnan => simp [wfV] at hwf
  | jbool b => simp [wfV] at hwf
  | jnum q => simp [wfV] at hwf
  | jstr s => simp [wfV] at hwf
  | jdate t => simp [wfV] at hwf
  | jarr xs => simp [wfV] at hwf

/-- The collected leaves of a list of well-formed objects are well-formed
    objects. -/
theorem leaves_wf : (xs : JsonList) → wfObjList xs = true →
    wfObjList (collectList xs) = true
  | .nil, _ => rfl
  | .cons c tl, h => by
    obtain ⟨hc, htl⟩ := wfObjList_split c tl h
    cases c with
    | jobj fs =>
      have hwff : wfFields fs = true := by simpa [wfV] using hc
      cases hOR : getProp fs "OR" with
      | none =>
        have hco := collectOr_none fs hOR
        rw [collectList.eq_def]
        simp only [hco]
        simp [wfObjList, hc, leaves_wf tl htl]
      | some v =>
        obtain ⟨inner, hv, hinner⟩ := wfFields_OR fs hwff v hOR
        subst hv
        have hco := collectOr_some fs inner hOR
        rw [collectList.eq_def]
        simp only [hco]
        exact wfObjList_append _ _ (leaves_wf inner hinner) (leaves_wf tl htl)
    | jnull => simp [wfV] at hc
    | jnan => simp [wfV] at hc
    | jbool b => simp [wfV] at hc
    | jnum q => simp [wfV] at hc
    | jstr s => simp [wfV] at hc
    | jdate t => simp [wfV] at hc
    | jarr ys => simp [wfV] at hc
termination_by xs _ => sizeOf xs
decreasing_by
  all_goals simp_wf
  have hce : c = JsonVal.jobj fs := by assumption
  subst hce
  have h1 := sizeOf_getProp fs "OR" (.jarr inner) hOR
  simp at h1 ⊢
  omega

theorem tame_of_wfObjList : (ls : JsonList) → wfObjList ls = true →
    jlAll leafTame ls = true
  | .nil, _ => rfl
  | .cons v tl, h => by
    obtain ⟨hv, htl⟩ := wfObjList_split v tl h
    simp [jlAll, wf_leafTame v hv, tame_of_wfObjList tl htl]

theorem contribs_append : (a b : JsonList) →
    contribs (jlAppend a b) =
      (match contribs a, contribs b with
       | some pa, some pb => some (pa ++ pb)
       | _, _ => none)
  | .nil, b => by cases hb : contribs b <;> simp [jlAppend, contribs, hb]
  | .cons l a, b => by
    simp only [jlAppend, contribs]
    cases hle : leafEqIn l with
    | none => simp
    | some p =>
      rw [contribs_append a b]
      cases contribs a <;> cases contribs b <;> simp

theorem concatVals_append : (pa pb : List (String × JsonList)) →
    concatVals (pa ++ pb) = jlAppend (concatVals pa) (concatVals pb)
  | [], _ => rfl
  | p :: pa, pb => by
    simp [concatVals, concatVals_append pa pb, jlAppend_assoc]

/-- The rewrite data as a function of the per-leaf contributions. -/
def specFromContribs : Option (List (String × JsonList)) → Option (String × JsonList)
  | some ((f, vs) :: ps) =>
    if allSameF f ps then some (f, dedupJ (jlAppend vs (concatVals ps))) else none
  | _ => none

theorem spec_eq_contribs (conds : JsonList) :
    specOrRewrite conds = specFromContribs (contribs (collectList conds)) := by
  unfold specOrRewrite
  cases collectList conds with
  | nil => rfl
  | cons l tl =>
    cases hle : leafEqIn l with
    | none => simp [contribs, hle, specFromContribs]
    | some p =>
      obtain ⟨f, vs⟩ := p
      simp only [hle]
      rw [sameFieldVals_eq f tl]
      cases hct : contribs tl with
      | none => simp [contribs, hle, hct, specFromContribs]
      | some ps =>
        by_cases hall : allSameF f ps = true <;>
          simp [contribs, hle, hct, specFromContribs, hall]

theorem contribs_wf_facts : (ls : JsonList) → wfObjList ls = true →
    (ps : List (String × JsonList)) → contribs ls = some ps →
    ∀ p ∈ ps, ((p.1 ≠ "AND" ∧ p.1 ≠ "OR" ∧ p.1 ≠ "NOT" ∧ p.1 ≠ "equals" ∧ p.1 ≠ "in")
      ∧ allScalar p.2 = true)
  | .nil, _, ps, hc => by
    have : ps = [] := by simpa [contribs] using hc.symm
    subst this
    intro p hp
    cases hp
  | .cons l tl, h, ps, hc => by
    obtain ⟨hl, htl⟩ := wfObjList_split l tl h
    cases hle : leafEqIn l with
    | none => rw [contribs, hle] at hc; cases hc
    | some p0 =>
      rw [contribs, hle] at hc
      cases hct : contribs tl with
      | none => rw [hct] at hc; cases hc
      | some ps2 =>
        rw [hct] at hc
        have hps : ps = p0 :: ps2 := by simpa using hc.symm
        subst hps
        intro p hp
        cases hp with
        | head =>
          obtain ⟨hres, hsc⟩ := wf_leafEqIn l hl p0.1 p0.2 (by simpa using hle)
          exact ⟨hres, hsc⟩
        | tail _ hmem => exact contribs_wf_facts tl htl ps2 hct p hmem

theorem allScalar_append : (a b : JsonList) → allScalar a = true → allScalar b = true →
    allScalar (jlAppend a b) = true
  | .nil, _, _, hb => hb
  | .cons v tl, b, ha, hb => by
    have h2 : scalarJ v = true ∧ allScalar tl = true := by
      simpa [allScalar, Bool.and_eq_true] using ha
    simp [jlAppend, allScalar, h2.1, allScalar_append tl b h2.2 hb]

theorem allScalar_concatVals (ps : List (String × JsonList))
    (h : ∀ p ∈ ps, allScalar p.2 = true) : allScalar (concatVals ps) = true := by
  induction ps with
  | nil => rfl
  | cons p ps ih =>
    simp only [concatVals]
    exact allScalar_append _ _ (h p (by simp)) (ih (fun q hq => h q (by simp [hq])))

theorem allScalar_dedupGo : (xs seen : JsonList) → allScalar xs = true →
    allScalar (dedupGo xs seen) = true
  | .nil, _, _ => rfl
  | .cons v tl, seen, h => by
    have h2 : scalarJ v = true ∧ allScalar tl = true := by
      simpa [allScalar, Bool.and_eq_true] using h
    by_cases hc : jlContains seen v = true
    · simp [dedupGo, hc, allScalar_dedupGo tl seen h2.2]
    · simp only [dedupGo, Bool.not_eq_true] at hc ⊢
      rw [hc]
      simp [allScalar, h2.1, allScalar_dedupGo tl (.cons v seen) h2.2]

/-- Under well-formedness, a successful flatten returns a genuine field name
    and scalar values only. -/
theorem flatten_wf_facts (conds : JsonList) (hwf : wfObjList conds = true)
    (f : String) (vs : JsonList) (hfl : flattenOrConditions conds = some (f, vs)) :
    (f ≠ "AND" ∧ f ≠ "OR" ∧ f ≠ "NOT" ∧ f ≠ "equals" ∧ f ≠ "in")
    ∧ allScalar vs = true := by
  rw [flatten_eq_spec conds (tame_of_wfObjList _ (leaves_wf conds hwf)),
    spec_eq_contribs] at hfl
  cases hct : contribs (collectList conds) with
  | none => rw [hct] at hfl; cases hfl
  | some ps =>
    rw [hct] at hfl
    cases ps with
    | nil => cases hfl
    | cons p0 ps2 =>
      obtain ⟨f0, vs0⟩ := p0
      have hfacts := contribs_wf_facts (collectList conds) (leaves_wf conds hwf) _ hct
      by_cases hall : allSameF f0 ps2 = true
      · rw [specFromContribs, if_pos hall] at hfl
        have hf : f0 = f ∧ dedupJ (jlAppend vs0 (concatVals ps2)) = vs := by
          simpa using hfl
        obtain ⟨hf0, hvs⟩ := hf
        subst hf0
        refine ⟨(hfacts (f0, vs0) (by simp)).1, ?_⟩
        rw [← hvs]
        exact allScalar_dedupGo _ _ (allScalar_append _ _
          (hfacts (f0, vs0) (by simp)).2
          (allScalar_concatVals ps2 (fun q hq => (hfacts q (by simp [hq])).2)))
      · rw [specFromContribs, if_neg hall] at hfl
        cases hfl

/-- Dropping, inside a segment, elements that duplicate earlier elements of
    the same segment (re-dedup relative to an inner seen set covered by the
    outer one) does not change a first-occurrence dedup of the whole. -/
theorem dedupGo_sub : (b c seen inner : JsonList) →
    (∀ v, jlContains inner v = true → jlContains seen v = true) →
    dedupGo (jlAppend (dedupGo b inner) c) seen = dedupGo (jlAppend b c) seen
  | .nil, _, _, _, _ => rfl
  | .cons v b, c, seen, inner, hsub => by
    by_cases hin : jlContains inner v = true
    · rw [dedupGo, if_pos hin]
      rw [show jlAppend (JsonList.cons v b) c = .cons v (jlAppend b c) from rfl]
      rw [dedupGo, if_pos (hsub v hin)]
      exact dedupGo_sub b c seen inner hsub
    · rw [dedupGo, if_neg hin]
      rw [show jlAppend (.cons v (dedupGo b (.cons v inner))) c =
        .cons v (jlAppend (dedupGo b (.cons v inner)) c) from rfl]
      rw [show jlAppend (JsonList.cons v b) c = .cons v (jlAppend b c) from rfl]
      by_cases hseen : jlContains seen v = true
      · rw [dedupGo, if_pos hseen, dedupGo, if_pos hseen]
        refine dedupGo_sub b c seen (.cons v inner) ?_
        intro w hw
        rw [jlContains] at hw
        by_cases hvw : v = w
        · rw [← hvw]; exact hseen
        · rw [if_neg hvw] at hw
          exact hsub w hw
      · rw [dedupGo, if_neg hseen, dedupGo, if_neg hseen]
        congr 1
        refine dedupGo_sub b c (.cons v seen) (.cons v inner) ?_
        intro w hw
        rw [jlContains] at hw ⊢
        by_cases hvw : v = w
        · rw [if_pos hvw]
        · rw [if_neg hvw] at hw ⊢
          exact hsub w hw

/-- Pre-deduplicating a middle segment does not change the global dedup. -/
theorem dedupGo_mid : (a : JsonList) → (b c seen : JsonList) →
    dedupGo (jlAppend a (jlAppend (dedupJ b) c)) seen =
      dedupGo (jlAppend a (jlAppend b c)) seen
  | .nil, b, c, seen => by
    simpa [jlAppend, dedupJ] using
      dedupGo_sub b c seen .nil (fun v hv => by simp [jlContains] at hv)
  | .cons v a, b, c, seen => by
    rw [show jlAppend (JsonList.cons v a) (jlAppend (dedupJ b) c) =
      .cons v (jlAppend a (jlAppend (dedupJ b) c)) from rfl]
    rw [show jlAppend (JsonList.cons v a) (jlAppend b c) =
      .cons v (jlAppend a (jlAppend b c)) from rfl]
    by_cases hseen : jlContains seen v = true
    · rw [dedupGo, if_pos hseen, dedupGo, if_pos hseen]
      exact dedupGo_mid a b c seen
    · rw [dedupGo, if_neg hseen, dedupGo, if_neg hseen]
      congr 1
      exact dedupGo_mid a b c (.cons v seen)

theorem dedup_mid (a b c : JsonList) :
    dedupJ (jlAppend a (jlAppend (dedupJ b) c)) = dedupJ (jlAppend a (jlAppend b c)) :=
  dedupGo_mid a b c .nil

/-- The compression relation between contribution lists: the left list arises
    from the right one by replacing blocks of same-field contributions (the
    leaves of a fired nested OR) by their single deduplicated contribution. -/
inductive CompRel : List (String × JsonList) → List (String × JsonList) → Prop where
  | nil : CompRel [] []
  | keep (p : String × JsonList) {ps qs : List (String × JsonList)} :
      CompRel ps qs → CompRel (p :: ps) (p :: qs)
  | compress (f : String) (block : List (String × JsonList))
      {ps qs : List (String × JsonList)}
      (hne : block ≠ [])
      (hall : allSameF f block = true)
      (hd : CompRel ps qs) :
      CompRel ((f, dedupJ (concatVals block)) :: ps) (block ++ qs)

theorem allSameF_nonempty (g : String) (block : List (String × JsonList))
    (hall : allSameF g block = true) (hne : block ≠ []) (f : String) :
    allSameF f block = decide (g = f) := by
  cases block with
  | nil => exact absurd rfl hne
  | cons b bs =>
    have hb : b.1 = g ∧ allSameF g bs = true := by
      simpa [allSameF, List.all_cons, Bool.and_eq_true] using hall
    by_cases hgf : g = f
    · subst hgf
      simp [hall]
    · have hbne : b.1 ≠ f := by rw [hb.1]; exact hgf
      simp [allSameF, List.all_cons, hbne, hgf]

theorem compRel_allSame {ps qs : List (String × JsonList)} (h : CompRel ps qs)
    (f : String) : allSameF f ps = allSameF f qs := by
  induction h with
  | nil => rfl
  | keep p hd ih =>
    rename_i ps' qs'
    show (decide (p.1 = f) && allSameF f ps') = (decide (p.1 = f) && allSameF f qs')
    rw [ih]
  | compress g block hne hall hd ih =>
    rename_i ps' qs'
    show (decide (g = f) && allSameF f ps') = allSameF f (block ++ qs')
    have happ : allSameF f (block ++ qs') = (allSameF f block && allSameF f qs') := by
      simp [allSameF, List.all_append]
    rw [happ, allSameF_nonempty g block hall hne f, ih]

theorem compRel_concat {ps qs : List (String × JsonList)} (h : CompRel ps qs) :
    ∀ x, dedupJ (jlAppend x (concatVals ps)) = dedupJ (jlAppend x (concatVals qs)) := by
  induction h with
  | nil => intro x; rfl
  | keep p hd ih =>
    intro x
    show dedupJ (jlAppend x (jlAppend p.2 _)) = dedupJ (jlAppend x (jlAppend p.2 _))
    rw [← jlAppend_assoc, ← jlAppend_assoc]
    exact ih (jlAppend x p.2)
  | compress g block hne hall hd ih =>
    intro x
    show dedupJ (jlAppend x (jlAppend (dedupJ (concatVals block)) _)) =
      dedupJ (jlAppend x (concatVals (block ++ _)))
    rw [dedup_mid, concatVals_append, ← jlAppend_assoc, ← jlAppend_assoc]
    exact ih (jlAppend x (concatVals block))

theorem compRel_spec {ps qs : List (String × JsonList)} (h : CompRel ps qs) :
    specFromContribs (some ps) = specFromContribs (some qs) := by
  cases h with
  | nil => rfl
  | keep p hd =>
    obtain ⟨f, vs⟩ := p
    rename_i ps' qs'
    show (if allSameF f ps' then some (f, dedupJ (jlAppend vs (concatVals ps'))) else none) =
      (if allSameF f qs' then some (f, dedupJ (jlAppend vs (concatVals qs'))) else none)
    rw [compRel_allSame hd f, compRel_concat hd vs]
  | compress g block hne hall hd =>
    rename_i ps' qs'
    obtain ⟨b, bs, hbk⟩ : ∃ b bs, block = b :: bs := by
      cases block with
      | nil => exact absurd rfl hne
      | cons b bs => exact ⟨b, bs, rfl⟩
    subst hbk
    obtain ⟨f0, vs0⟩ := b
    have hpair : f0 = g ∧ allSameF g bs = true := by
      simpa [allSameF, List.all_cons, Bool.and_eq_true] using hall
    have hf0 := hpair.1
    subst hf0
    have hbs : allSameF f0 bs = true := hpair.2
    show (if allSameF f0 ps' then
        some (f0, dedupJ (jlAppend (dedupJ (concatVals ((f0, vs0) :: bs))) (concatVals ps')))
      else none) =
      (if allSameF f0 (bs ++ qs') then
        some (f0, dedupJ (jlAppend vs0 (concatVals (bs ++ qs'))))
      else none)
    have hcond : allSameF f0 (bs ++ qs') = allSameF f0 ps' := by
      rw [show allSameF f0 (bs ++ qs') = (allSameF f0 bs && allSameF f0 qs') from by
        simp [allSameF, List.all_append]]
      rw [hbs, ← compRel_allSame hd f0]
      simp
    rw [hcond]
    by_cases hps : allSameF f0 ps' = true
    · rw [if_pos hps, if_pos hps]
      have h1 : dedupJ (jlAppend (dedupJ (concatVals ((f0, vs0) :: bs))) (concatVals ps')) =
          dedupJ (jlAppend (concatVals ((f0, vs0) :: bs)) (concatVals ps')) := by
        have hm := dedupGo_mid .nil (concatVals ((f0, vs0) :: bs)) (concatVals ps') .nil
        simpa [jlAppend, dedupJ] using hm
      have h2 := compRel_concat hd (jlAppend vs0 (concatVals bs))
      have h3 : dedupJ (jlAppend (dedupJ (concatVals ((f0, vs0) :: bs))) (concatVals ps')) =
          dedupJ (jlAppend vs0 (concatVals (bs ++ qs'))) := by
        rw [h1]
        rw [show concatVals ((f0, vs0) :: bs) = jlAppend vs0 (concatVals bs) from rfl]
        rw [h2]
        rw [jlAppend_assoc, concatVals_append]
      rw [h3]
    · rw [if_neg hps, if_neg hps]

/-! Unfolding lemmas for the optimizer's branch structure, phrased on the
    outcome of the OR lookup and of flattenOrConditions. -/

theorem opt_obj_noOR (fs : JsonFields) (hOR : getProp fs "OR" = none) :
    optimizeOrToIn (.jobj fs) = .jobj (optFields fs) := by
  rw [optimizeOrToIn.eq_def]
  simp only [hOR]

theorem opt_obj_OR_scalar (fs : JsonFields) (w : JsonVal)
    (hOR : getProp fs "OR" = some w) (hw : ∀ xs, w ≠ .jarr xs) :
    optimizeOrToIn (.jobj fs) = .jobj (optFields fs) := by
  rw [optimizeOrToIn.eq_def]
  simp only [hOR]
  cases w with
  | jarr xs => exact absurd rfl (hw xs)
  | jnull => rfl
  | jnan => rfl
  | jbool b => rfl
  | jnum q => rfl
  | jstr s => rfl
  | jdate t => rfl
  | jobj gs => rfl

theorem opt_obj_OR_none (fs : JsonFields) (conds : JsonList)
    (hOR : getProp fs "OR" = some (.jarr conds))
    (hfl : flattenOrConditions conds = none) :
    optimizeOrToIn (.jobj fs) = .jobj (optFields fs) := by
  rw [optimizeOrToIn.eq_def]
  simp only [hOR, hfl]

theorem opt_obj_OR_fire (fs : JsonFields) (conds : JsonList) (f : String)
    (vs : JsonList)
    (hOR : getProp fs "OR" = some (.jarr conds))
    (hfl : flattenOrConditions conds = some (f, vs))
    (hlen : 1 < jlLength vs) :
    optimizeOrToIn (.jobj fs) = jobj1 f (jobj1 "in" (.jarr vs)) := by
  rw [optimizeOrToIn.eq_def]
  simp only [hOR, hfl]
  rw [if_pos hlen]

theorem opt_obj_OR_one (fs : JsonFields) (conds : JsonList) (f : String)
    (v : JsonVal)
    (hOR : getProp fs "OR" = some (.jarr conds))
    (hfl : flattenOrConditions conds = some (f, .cons v .nil)) :
    optimizeOrToIn (.jobj fs) = jobj1 f (jobj1 "equals" v) := by
  rw [optimizeOrToIn.eq_def]
  simp only [hOR, hfl]
  rw [if_neg (by simp [jlLength])]

theorem opt_obj_OR_nil (fs : JsonFields) (conds : JsonList) (f : String)
    (hOR : getProp fs "OR" = some (.jarr conds))
    (hfl : flattenOrConditions conds = some (f, .nil)) :
    optimizeOrToIn (.jobj fs) = .jobj (optFields fs) := by
  rw [optimizeOrToIn.eq_def]
  simp only [hOR, hfl]
  rw [if_neg (by simp [jlLength])]

theorem collectList_leaf (fs : JsonFields) (tl : JsonList)
    (h : collectOr fs = none) :
    collectList (.cons (.jobj fs) tl) = .cons (.jobj fs) (collectList tl) := by
  rw [collectList.eq_def]
  simp only [h]

theorem collectList_desc (fs : JsonFields) (tl : JsonList) (leaves : JsonList)
    (h : collectOr fs = some leaves) :
    collectList (.cons (.jobj fs) tl) = jlAppend leaves (collectList tl) := by
  rw [collectList.eq_def]
  simp only [h]

/-- A well-formed good leaf is a single-field object over an operator
    object. -/
theorem wf_leaf_shape (l : JsonVal) (hwf : wfV l = true) (f : String) (vs : JsonList)
    (hle : leafEqIn l = some (f, vs)) :
    ∃ ops, l = .jobj (.cons f (.jobj ops) .nil) ∧ wfOps ops = true := by
  cases l with
  | jobj fs =>
    cases fs with
    | nil => simp [leafEqIn] at hle
    | cons k v fs2 =>
      cases fs2 with
      | cons k2 v2 fs3 => simp [leafEqIn] at hle
      | nil =>
        cases v with
        | jobj ops =>
          have hwff : wfFields (.cons k (.jobj ops) .nil) = true := by
            simpa [wfV] using hwf
          obtain ⟨hk, _⟩ := wfFields_split k (.jobj ops) .nil hwff
          by_cases hAO : k = "AND" ∨ k = "OR"
          · rw [if_pos hAO] at hk
            simp [wfCombArr] at hk
          · by_cases hN : k = "NOT"
            · rw [if_neg hAO, if_pos hN] at hk
              have hops : wfFields ops = true := by simpa [wfV] using hk
              obtain ⟨he, hi⟩ := wfFields_no_eq ops hops
              simp [leafEqIn, he, hi] at hle
            · rw [if_neg hAO, if_neg hN] at hk
              obtain ⟨⟨hne, hni⟩, hfv⟩ := hk
              have hops : wfOps ops = true := by simpa [wfFieldVal] using hfv
              have hfk : f = k := by
                cases he : getProp ops "equals" with
                | some e =>
                  rw [leafEqIn, he] at hle
                  have h2 := hle
                  simp at h2
                  exact h2.1.symm
                | none =>
                  cases hi : getProp ops "in" with
                  | none => simp [leafEqIn, he, hi] at hle
                  | some w =>
                    cases w with
                    | jarr vs0 =>
                      rw [leafEqIn, he, hi] at hle
                      have h2 := hle
                      simp at h2
                      exact h2.1.symm
                    | jobj o2 => simp [leafEqIn, he, hi] at hle
                    | jstr s2 => simp [leafEqIn, he, hi] at hle
                    | jnull => simp [leafEqIn, he, hi] at hle
                    | jnan => simp [leafEqIn, he, hi] at hle
                    | jbool b2 => simp [leafEqIn, he, hi] at hle
                    | jnum q2 => simp [leafEqIn, he, hi] at hle
                    | jdate t2 => simp [leafEqIn, he, hi] at hle
              exact ⟨ops, by rw [hfk], hops⟩
        | jarr xs => simp [leafEqIn] at hle
        | jdate t => simp [leafEqIn] at hle
        | jnull => simp [leafEqIn] at hle
        | jnan => simp [leafEqIn] at hle
        | jbool b => simp [leafEqIn] at hle
        | jnum q => simp [leafEqIn] at hle
        | jstr s => simp [leafEqIn] at hle
  | jnull => simp [wfV] at hwf
  | jnan => simp [wfV] at hwf
  | jbool b => simp [wfV] at hwf
  | jnum q => simp [wfV] at hwf
  | jstr s => simp [wfV] at hwf
  | jdate t => simp [wfV] at hwf
  | jarr xs => simp [wfV] at hwf

/-- A well-formed good leaf is left unchanged by the optimizer. -/
theorem leaf_good_stable (l : JsonVal) (hwf : wfV l = true) (f : String)
    (vs : JsonList) (hle : leafEqIn l = some (f, vs)) :
    optimizeOrToIn l = l := by
  obtain ⟨ops, hl, hops⟩ := wf_leaf_shape l hwf f vs hle
  have hres := (wf_leafEqIn l hwf f vs hle).1
  subst hl
  have hOR : getProp (JsonFields.cons f (.jobj ops) .nil) "OR" = none := by
    simp [getProp, hres.2.1]
  rw [opt_obj_noOR _ hOR, optFields_cons]
  rw [optEntry_wfFieldVal (.jobj ops) (by simpa [wfFieldVal] using hops)]
  rfl

/-- Objects with two or more keys are never good leaves. -/
theorem leafEqIn_two (k : String) (w : JsonVal) (k2 : String) (w2 : JsonVal)
    (tl : JsonFields) : leafEqIn (.jobj (.cons k w (.cons k2 w2 tl))) = none := by
  cases w <;> rfl

/-- The optimizer maps a well-formed object to an object without top-level
    equals or in keys. -/
theorem opt_no_eqin (fs : JsonFields) (hwf : wfFields fs = true) :
    ∃ gs, optimizeOrToIn (.jobj fs) = .jobj gs ∧
      getProp gs "equals" = none ∧ getProp gs "in" = none := by
  obtain ⟨he, hi⟩ := wfFields_no_eq fs hwf
  cases hOR : getProp fs "OR" with
  | none =>
    exact ⟨optFields fs, opt_obj_noOR fs hOR,
      by rw [getProp_optFields, he]; rfl,
      by rw [getProp_optFields, hi]; rfl⟩
  | some v =>
    obtain ⟨conds, hv, hconds⟩ := wfFields_OR fs hwf v hOR
    subst hv
    cases hfl : flattenOrConditions conds with
    | none =>
      exact ⟨optFields fs, opt_obj_OR_none fs conds hOR hfl,
        by rw [getProp_optFields, he]; rfl,
        by rw [getProp_optFields, hi]; rfl⟩
    | some p =>
      obtain ⟨f, vs⟩ := p
      obtain ⟨hres, hsc⟩ := flatten_wf_facts conds hconds f vs hfl
      by_cases hlen : 1 < jlLength vs
      · refine ⟨.cons f (jobj1 "in" (.jarr vs)) .nil,
          opt_obj_OR_fire fs conds f vs hOR hfl hlen, ?_, ?_⟩
        · simp [getProp, hres.2.2.2.1]
        · simp [getProp, hres.2.2.2.2]
      · cases vs with
        | nil =>
          exact ⟨optFields fs, opt_obj_OR_nil fs conds f hOR hfl,
            by rw [getProp_optFields, he]; rfl,
            by rw [getProp_optFields, hi]; rfl⟩
        | cons v0 vtl =>
          cases vtl with
          | nil =>
            refine ⟨.cons f (jobj1 "equals" v0) .nil,
              opt_obj_OR_one fs conds f v0 hOR hfl, ?_, ?_⟩
            · simp [getProp, hres.2.2.2.1]
            · simp [getProp, hres.2.2.2.2]
          | cons v1 vtl2 =>
            exact absurd (by simp [jlLength]) hlen

/-- A well-formed object without an OR key that is not a good leaf stays a
    bad leaf under the generic recursion. -/
theorem leaf_none_opt (fs : JsonFields) (hwf : wfFields fs = true)
    (hOR : getProp fs "OR" = none)
    (hle : leafEqIn (.jobj fs) = none) :
    leafEqIn (.jobj (optFields fs)) = none := by
  cases fs with
  | nil => rfl
  | cons k v fs2 =>
    cases fs2 with
    | cons k2 v2 fs3 =>
      rw [optFields_cons, optFields_cons]
      exact leafEqIn_two k (optEntry v) k2 (optEntry v2) (optFields fs3)
    | nil =>
      obtain ⟨hk, _⟩ := wfFields_split k v .nil hwf
      rw [optFields_cons]
      by_cases hAO : k = "AND" ∨ k = "OR"
      · rcases hAO with h1 | h1
        · rw [if_pos (Or.inl h1)] at hk
          cases v with
          | jarr xs => rfl
          | jnull => simp [wfCombArr] at hk
          | jnan => simp [wfCombArr] at hk
          | jbool b => simp [wfCombArr] at hk
          | jnum q => simp [wfCombArr] at hk
          | jstr s => simp [wfCombArr] at hk
          | jdate t => simp [wfCombArr] at hk
          | jobj o2 => simp [wfCombArr] at hk
        · rw [h1] at hOR
          simp [getProp] at hOR
      · by_cases hN : k = "NOT"
        · rw [if_neg hAO, if_pos hN] at hk
          cases v with
          | jobj ops2 =>
            have hops2 : wfFields ops2 = true := by simpa [wfV] using hk
            obtain ⟨gs, hgs, hge, hgi⟩ := opt_no_eqin ops2 hops2
            have hent : optEntry (.jobj ops2) = .jobj gs := by
              simpa [optEntry] using hgs
            rw [hent]
            simp [optFields, leafEqIn, hge, hgi]
          | jnull => simp [wfV] at hk
          | jnan => simp [wfV] at hk
          | jbool b => simp [wfV] at hk
          | jnum q => simp [wfV] at hk
          | jstr s => simp [wfV] at hk
          | jdate t => simp [wfV] at hk
          | jarr xs => simp [wfV] at hk
        · rw [if_neg hAO, if_neg hN] at hk
          obtain ⟨hne2, hfv⟩ := hk
          rw [optEntry_wfFieldVal v hfv]
          exact hle

theorem compRel_append {ps qs ps2 qs2 : List (String × JsonList)}
    (h : CompRel ps qs) (h2 : CompRel ps2 qs2) :
    CompRel (ps ++ ps2) (qs ++ qs2) := by
  induction h with
  | nil => simpa using h2
  | keep p hd ih => exact CompRel.keep p ih
  | compress g block hne hall hd ih =>
    have h3 := CompRel.compress g block hne hall ih
    simpa [List.append_assoc] using h3

/-- The option-level form of the compression relation, matching the failure
    propagation of the contribution extractor. -/
def contribsRel : Option (List (String × JsonList)) →
    Option (List (String × JsonList)) → Prop
  | none, none => True
  | some ps, some qs => CompRel ps qs
  | _, _ => False

theorem specFromContribs_rel {a b : Option (List (String × JsonList))}
    (h : contribsRel a b) : specFromContribs a = specFromContribs b := by
  cases a with
  | none =>
    cases b with
    | none => rfl
    | some qs => exact absurd h (by simp [contribsRel])
  | some ps =>
    cases b with
    | none => exact absurd h (by simp [contribsRel])
    | some qs => exact compRel_spec h

def appendContribs : Option (List (String × JsonList)) →
    Option (List (String × JsonList)) → Option (List (String × JsonList))
  | some x, some y => some (x ++ y)
  | _, _ => none

theorem contribs_append2 (a b : JsonList) :
    contribs (jlAppend a b) = appendContribs (contribs a) (contribs b) := by
  rw [contribs_append]
  cases contribs a <;> cases contribs b <;> rfl

theorem contribsRel_app (a a2 b b2 : Option (List (String × JsonList)))
    (ha : contribsRel a a2) (hb : contribsRel b b2) :
    contribsRel (appendContribs a b) (appendContribs a2 b2) := by
  cases a with
  | none =>
    cases a2 with
    | none =>
      cases b <;> cases b2 <;> simp [contribsRel, appendContribs]
    | some qs => exact ha.elim
  | some ps =>
    cases a2 with
    | none => exact ha.elim
    | some qs =>
      cases b with
      | none =>
        cases b2 with
        | none => simp [contribsRel, appendContribs]
        | some y2 => exact hb.elim
      | some y =>
        cases b2 with
        | none => exact hb.elim
        | some y2 => exact compRel_append ha hb

/-- Inversion of a successful spec-side rewrite: the contribution list is a
    nonempty same-field block whose deduplicated concatenation is the value
    list. -/
theorem specFrom_some (o : Option (List (String × JsonList))) (f : String)
    (vs : JsonList) (h : specFromContribs o = some (f, vs)) :
    ∃ vs0 bs, o = some ((f, vs0) :: bs) ∧ allSameF f bs = true ∧
      vs = dedupJ (jlAppend vs0 (concatVals bs)) := by
  cases o with
  | none => cases h
  | some ps =>
    cases ps with
    | nil => cases h
    | cons p bs =>
      obtain ⟨f0, vs0⟩ := p
      rw [specFromContribs] at h
      by_cases hall : allSameF f0 bs = true
      · rw [if_pos hall] at h
        obtain ⟨hf, hv⟩ : f0 = f ∧ dedupJ (jlAppend vs0 (concatVals bs)) = vs := by
          simpa using h
        subst hf
        exact ⟨vs0, bs, rfl, hall, hv.symm⟩
      · rw [if_neg hall] at h
        cases h

/-! Well-formedness is preserved by the optimizer. -/

mutual

theorem opt_wf : (x : JsonVal) → wfV x = true → wfV (optimizeOrToIn x) = true
  | .jobj fs, h => by
    have hwff : wfFields fs = true := by simpa [wfV] using h
    cases hOR : getProp fs "OR" with
    | none =>
      rw [opt_obj_noOR fs hOR]
      simpa [wfV] using optFields_wf fs hwff
    | some v =>
      obtain ⟨conds, hv, hconds⟩ := wfFields_OR fs hwff v hOR
      subst hv
      cases hfl : flattenOrConditions conds with
      | none =>
        rw [opt_obj_OR_none fs conds hOR hfl]
        simpa [wfV] using optFields_wf fs hwff
      | some p =>
        obtain ⟨f, vs⟩ := p
        obtain ⟨hres, hsc⟩ := flatten_wf_facts conds hconds f vs hfl
        have hAO : ¬(f = "AND" ∨ f = "OR") := by
          push_neg
          exact ⟨hres.1, hres.2.1⟩
        by_cases hlen : 1 < jlLength vs
        · rw [opt_obj_OR_fire fs conds f vs hOR hfl hlen]
          simp [wfV, jobj1, wfFields, hAO, hres.2.2.1, hres.2.2.2.1,
            hres.2.2.2.2, wfFieldVal, wfOps, scalarArr, hsc]
        · cases vs with
          | nil =>
            rw [opt_obj_OR_nil fs conds f hOR hfl]
            simpa [wfV] using optFields_wf fs hwff
          | cons v0 vtl =>
            cases vtl with
            | nil =>
              have hs0 : scalarJ v0 = true := by
                simpa [allScalar] using hsc
              rw [opt_obj_OR_one fs conds f v0 hOR hfl]
              simp [wfV, jobj1, wfFields, hAO, hres.2.2.1, hres.2.2.2.1,
                hres.2.2.2.2, wfFieldVal, wfOps, hs0]
            | cons v1 vtl2 =>
              exact absurd (by simp [jlLength]) hlen
  | .jnull, h => by simp [wfV] at h
  | .jnan, h => by simp [wfV] at h
  | .jbool b, h => by simp [wfV] at h
  | .jnum q, h => by simp [wfV] at h
  | .jstr s, h => by simp [wfV] at h
  | .jdate t, h => by simp [wfV] at h
  | .jarr xs, h => by simp [wfV] at h

theorem optFields_wf : (fs : JsonFields) → wfFields fs = true →
    wfFields (optFields fs) = true
  | .nil, _ => rfl
  | .cons k v tl, h => by
    obtain ⟨hk, htl⟩ := wfFields_split k v tl h
    rw [optFields_cons]
    by_cases hAO : k = "AND" ∨ k = "OR"
    · rw [if_pos hAO] at hk
      cases v with
      | jarr xs =>
        have hxs : wfObjList xs = true := by simpa [wfCombArr] using hk
        simp [wfFields, hAO, optEntry, wfCombArr,
          optEach_wf xs hxs, optFields_wf tl htl]
      | jnull => simp [wfCombArr] at hk
      | jnan => simp [wfCombArr] at hk
      | jbool b => simp [wfCombArr] at hk
      | jnum q => simp [wfCombArr] at hk
      | jstr s => simp [wfCombArr] at hk
      | jdate t => simp [wfCombArr] at hk
      | jobj o2 => simp [wfCombArr] at hk
    · by_cases hN : k = "NOT"
      · rw [if_neg hAO, if_pos hN] at hk
        cases v with
        | jobj ops2 =>
          have hv2 := opt_wf (.jobj ops2) hk
          simp [wfFields, hAO, hN, optEntry, hv2, optFields_wf tl htl]
        | jnull => simp [wfV] at hk
        | jnan => simp [wfV] at hk
        | jbool b => simp [wfV] at hk
        | jnum q => simp [wfV] at hk
        | jstr s => simp [wfV] at hk
        | jdate t => simp [wfV] at hk
        | jarr xs => simp [wfV] at hk
      · rw [if_neg hAO, if_neg hN] at hk
        obtain ⟨hne, hfv⟩ := hk
        rw [optEntry_wfFieldVal v hfv]
        simp [wfFields, hAO, hN, hne.1, hne.2, hfv, optFields_wf tl htl]

theorem optEach_wf : (xs : JsonList) → wfObjList xs = true →
    wfObjList (optEach xs) = true
  | .nil, _ => rfl
  | .cons v tl, h => by
    obtain ⟨hv, htl⟩ := wfObjList_split v tl h
    simp [optEach, wfObjList, opt_wf v hv, optEach_wf tl htl]

end

/-- One optimizer pass over a well-formed member list leaves the collected
    contribution data related by compression: fired nested ORs collapse a
    same-field block into its deduplicated contribution, everything else is
    kept, and classification failure is preserved. -/
theorem comp_list : (xs : JsonList) → wfObjList xs = true →
    contribsRel (contribs (collectList (optEach xs))) (contribs (collectList xs))
  | .nil, _ => CompRel.nil
  | .cons c tl, h => by
    obtain ⟨hc, htl⟩ := wfObjList_split c tl h
    cases c with
    | jobj fs =>
      have hwff : wfFields fs = true := by simpa [wfV] using hc
      rw [show optEach (.cons (.jobj fs) tl) =
        .cons (optimizeOrToIn (.jobj fs)) (optEach tl) from rfl]
      cases hOR : getProp fs "OR" with
      | none =>
        rw [opt_obj_noOR fs hOR]
        rw [collectList_leaf (optFields fs) (optEach tl)
          (collectOr_none _ (by rw [getProp_optFields, hOR]; rfl))]
        rw [collectList_leaf fs tl (collectOr_none fs hOR)]
        cases hle : leafEqIn (.jobj fs) with
        | none =>
          have hle2 := leaf_none_opt fs hwff hOR hle
          simp only [contribs, hle, hle2]
          exact trivial
        | some p =>
          obtain ⟨f, vs⟩ := p
          have hff : JsonVal.jobj (optFields fs) = .jobj fs := by
            rw [← opt_obj_noOR fs hOR]
            exact leaf_good_stable (.jobj fs) hc f vs hle
          rw [hff]
          simp only [contribs, hle]
          have ih := comp_list tl htl
          cases ha : contribs (collectList (optEach tl)) with
          | none =>
            cases hb : contribs (collectList tl) with
            | none => exact trivial
            | some qs => rw [ha, hb] at ih; exact ih.elim
          | some ps =>
            cases hb : contribs (collectList tl) with
            | none => rw [ha, hb] at ih; exact ih.elim
            | some qs =>
              rw [ha, hb] at ih
              show CompRel ((f, vs) :: ps) ((f, vs) :: qs)
              exact CompRel.keep (f, vs) ih
      | some v =>
        obtain ⟨conds, hv, hconds⟩ := wfFields_OR fs hwff v hOR
        subst hv
        rw [collectList_desc fs tl _ (collectOr_some fs conds hOR)]
        rw [contribs_append2]
        cases hfl : flattenOrConditions conds with
        | none =>
          rw [opt_obj_OR_none fs conds hOR hfl]
          rw [collectList_desc (optFields fs) (optEach tl) _
            (collectOr_some _ (optEach conds) (by rw [getProp_optFields, hOR]; rfl))]
          rw [contribs_append2]
          exact contribsRel_app _ _ _ _ (comp_list conds hconds) (comp_list tl htl)
        | some p =>
          obtain ⟨f, vs⟩ := p
          obtain ⟨hres, hsc⟩ := flatten_wf_facts conds hconds f vs hfl
          have hspec : specFromContribs (contribs (collectList conds)) = some (f, vs) := by
            rw [← spec_eq_contribs, ← flatten_eq_spec conds
              (tame_of_wfObjList _ (leaves_wf conds hconds))]
            exact hfl
          obtain ⟨vs0, bs, hblock, hallbs, hvs⟩ := specFrom_some _ f vs hspec
          by_cases hlen : 1 < jlLength vs
          · rw [opt_obj_OR_fire fs conds f vs hOR hfl hlen]
            simp only [jobj1]
            rw [collectList_leaf _ (optEach tl)
              (collectOr_none _ (by simp [getProp, hres.2.1]))]
            have hlef : leafEqIn
                (.jobj (.cons f (.jobj (.cons "in" (.jarr vs) .nil)) .nil)) =
                some (f, vs) := rfl
            simp only [contribs, hlef]
            rw [hblock]
            have ih := comp_list tl htl
            cases ha : contribs (collectList (optEach tl)) with
            | none =>
              cases hb : contribs (collectList tl) with
              | none => exact trivial
              | some qs => rw [ha, hb] at ih; exact ih.elim
            | some ps =>
              cases hb : contribs (collectList tl) with
              | none => rw [ha, hb] at ih; exact ih.elim
              | some qs =>
                rw [ha, hb] at ih
                show CompRel ((f, vs) :: ps) (((f, vs0) :: bs) ++ qs)
                rw [hvs]
                have hall2 : allSameF f ((f, vs0) :: bs) = true := by
                  show (decide (f = f) && allSameF f bs) = true
                  rw [hallbs]
                  simp
                have hcomp := CompRel.compress f ((f, vs0) :: bs) (by simp) hall2 ih
                exact hcomp
          · cases hvcase : vs with
            | nil =>
              rw [hvcase] at hfl
              rw [opt_obj_OR_nil fs conds f hOR hfl]
              rw [collectList_desc (optFields fs) (optEach tl) _
                (collectOr_some _ (optEach conds) (by rw [getProp_optFields, hOR]; rfl))]
              rw [contribs_append2]
              exact contribsRel_app _ _ _ _ (comp_list conds hconds) (comp_list tl htl)
            | cons v0 vtl =>
              cases vtl with
              | nil =>
                rw [hvcase] at hfl
                rw [opt_obj_OR_one fs conds f v0 hOR hfl]
                simp only [jobj1]
                rw [collectList_leaf _ (optEach tl)
                  (collectOr_none _ (by simp [getProp, hres.2.1]))]
                have hlef : leafEqIn
                    (.jobj (.cons f (.jobj (.cons "equals" v0 .nil)) .nil)) =
                    some (f, .cons v0 .nil) := rfl
                simp only [contribs, hlef]
                rw [hblock]
                have ih := comp_list tl htl
                cases ha : contribs (collectList (optEach tl)) with
                | none =>
                  cases hb : contribs (collectList tl) with
                  | none => exact trivial
                  | some qs => rw [ha, hb] at ih; exact ih.elim
                | some ps =>
                  cases hb : contribs (collectList tl) with
                  | none => rw [ha, hb] at ih; exact ih.elim
                  | some qs =>
                    rw [ha, hb] at ih
                    show CompRel ((f, .cons v0 .nil) :: ps) (((f, vs0) :: bs) ++ qs)
                    rw [show JsonList.cons v0 .nil = vs from hvcase.symm, hvs]
                    have hall2 : allSameF f ((f, vs0) :: bs) = true := by
                      show (decide (f = f) && allSameF f bs) = true
                      rw [hallbs]
                      simp
                    exact CompRel.compress f ((f, vs0) :: bs) (by simp) hall2 ih
              | cons v1 vtl2 =>
                rw [hvcase] at hlen
                exact absurd (by simp [jlLength]) hlen
    | jnull => simp [wfV] at hc
    | jnan => simp [wfV] at hc
    | jbool b => simp [wfV] at hc
    | jnum q => simp [wfV] at hc
    | jstr s => simp [wfV] at hc
    | jdate t => simp [wfV] at hc
    | jarr ys => simp [wfV] at hc
termination_by xs _ => sizeOf xs
decreasing_by
  all_goals simp_wf
  all_goals
    (have hce : c = JsonVal.jobj fs := by assumption
     subst hce
     have h1 := sizeOf_getProp fs "OR" (.jarr conds) hOR
     simp at h1 ⊢
     omega)

/-- One optimizer pass over a well-formed OR member list does not change the
    outcome of flattenOrConditions on it. -/
theorem flatten_optEach (conds : JsonList) (h : wfObjList conds = true) :
    flattenOrConditions (optEach conds) = flattenOrConditions conds := by
  rw [flatten_eq_spec (optEach conds)
      (tame_of_wfObjList _ (leaves_wf _ (optEach_wf conds h))),
    flatten_eq_spec conds (tame_of_wfObjList _ (leaves_wf conds h)),
    spec_eq_contribs, spec_eq_contribs]
  exact specFromContribs_rel (comp_list conds h)

/-! Idempotence of the optimizer on well-formed filter objects. -/

mutual

theorem opt_idem : (x : JsonVal) → wfV x = true →
    optimizeOrToIn (optimizeOrToIn x) = optimizeOrToIn x
  | .jobj fs, h => by
    have hwff : wfFields fs = true := by simpa [wfV] using h
    cases hOR : getProp fs "OR" with
    | none =>
      rw [opt_obj_noOR fs hOR]
      have hOR2 : getProp (optFields fs) "OR" = none := by
        rw [getProp_optFields, hOR]; rfl
      rw [opt_obj_noOR _ hOR2, optFields_idem fs hwff]
    | some v =>
      obtain ⟨conds, hv, hconds⟩ := wfFields_OR fs hwff v hOR
      subst hv
      cases hfl : flattenOrConditions conds with
      | none =>
        rw [opt_obj_OR_none fs conds hOR hfl]
        have hOR2 : getProp (optFields fs) "OR" = some (.jarr (optEach conds)) := by
          rw [getProp_optFields, hOR]; rfl
        rw [opt_obj_OR_none (optFields fs) (optEach conds) hOR2
          (by rw [flatten_optEach conds hconds]; exact hfl)]
        rw [optFields_idem fs hwff]
      | some p =>
        obtain ⟨f, vs⟩ := p
        obtain ⟨hres, hsc⟩ := flatten_wf_facts conds hconds f vs hfl
        by_cases hlen : 1 < jlLength vs
        · rw [opt_obj_OR_fire fs conds f vs hOR hfl hlen]
          rw [show jobj1 f (jobj1 "in" (.jarr vs)) =
            .jobj (.cons f (jobj1 "in" (.jarr vs)) .nil) from rfl]
          have hORf : getProp (JsonFields.cons f (jobj1 "in" (.jarr vs)) .nil) "OR"
              = none := by
            simp [getProp, hres.2.1]
          rw [opt_obj_noOR _ hORf, optFields_cons]
          rw [optEntry_wfFieldVal (jobj1 "in" (.jarr vs))
            (by simp [jobj1, wfFieldVal, wfOps, scalarArr, hsc])]
          rfl
        · cases hvcase : vs with
          | nil =>
            rw [hvcase] at hfl
            rw [opt_obj_OR_nil fs conds f hOR hfl]
            have hOR2 : getProp (optFields fs) "OR" = some (.jarr (optEach conds)) := by
              rw [getProp_optFields, hOR]; rfl
            rw [opt_obj_OR_nil (optFields fs) (optEach conds) f hOR2
              (by rw [flatten_optEach conds hconds]; exact hfl)]
            rw [optFields_idem fs hwff]
          | cons v0 vtl =>
            cases vtl with
            | nil =>
              rw [hvcase] at hfl hsc
              rw [opt_obj_OR_one fs conds f v0 hOR hfl]
              have hs0 : scalarJ v0 = true := by simpa [allScalar] using hsc
              rw [show jobj1 f (jobj1 "equals" v0) =
                .jobj (.cons f (jobj1 "equals" v0) .nil) from rfl]
              have hORf : getProp (JsonFields.cons f (jobj1 "equals" v0) .nil) "OR"
                  = none := by
                simp [getProp, hres.2.1]
              rw [opt_obj_noOR _ hORf, optFields_cons]
              rw [optEntry_wfFieldVal (jobj1 "equals" v0)
                (by simp [jobj1, wfFieldVal, wfOps, hs0])]
              rfl
            | cons v1 vtl2 =>
              rw [hvcase] at hlen
              exact absurd (by simp [jlLength]) hlen
  | .jnull, h => by simp [wfV] at h
  | .jnan, h => by simp [wfV] at h
  | .jbool b, h => by simp [wfV] at h
  | .jnum q, h => by simp [wfV] at h
  | .jstr s, h => by simp [wfV] at h
  | .jdate t, h => by simp [wfV] at h
  | .jarr xs, h => by simp [wfV] at h

theorem optFields_idem : (fs : JsonFields) → wfFields fs = true →
    optFields (optFields fs) = optFields fs
  | .nil, _ => rfl
  | .cons k v tl, h => by
    obtain ⟨hk, htl⟩ := wfFields_split k v tl h
    rw [optFields_cons, optFields_cons, optFields_idem tl htl]
    congr 1
    by_cases hAO : k = "AND" ∨ k = "OR"
    · rw [if_pos hAO] at hk
      cases v with
      | jarr xs =>
        have hxs : wfObjList xs = true := by simpa [wfCombArr] using hk
        rw [show optEntry (JsonVal.jarr xs) = .jarr (optEach xs) from rfl]
        rw [show optEntry (JsonVal.jarr (optEach xs)) = .jarr (optEach (optEach xs))
          from rfl]
        rw [optEach_idem xs hxs]
      | jnull => simp [wfCombArr] at hk
      | jnan => simp [wfCombArr] at hk
      | jbool b => simp [wfCombArr] at hk
      | jnum q => simp [wfCombArr] at hk
      | jstr s => simp [wfCombArr] at hk
      | jdate t => simp [wfCombArr] at hk
      | jobj o2 => simp [wfCombArr] at hk
    · by_cases hN : k = "NOT"
      · rw [if_neg hAO, if_pos hN] at hk
        cases v with
        | jobj ops2 =>
          obtain ⟨gs, hgs, hge, hgi⟩ := opt_no_eqin ops2 (by simpa [wfV] using hk)
          rw [show optEntry (JsonVal.jobj ops2) = optimizeOrToIn (.jobj ops2) from rfl]
          rw [hgs]
          rw [show optEntry (JsonVal.jobj gs) = optimizeOrToIn (.jobj gs) from rfl]
          rw [← hgs]
          exact opt_idem (.jobj ops2) hk
        | jnull => simp [wfV] at hk
        | jnan => simp [wfV] at hk
        | jbool b => simp [wfV] at hk
        | jnum q => simp [wfV] at hk
        | jstr s => simp [wfV] at hk
        | jdate t => simp [wfV] at hk
        | jarr xs => simp [wfV] at hk
      · rw [if_neg hAO, if_neg hN] at hk
        obtain ⟨hne, hfv⟩ := hk
        rw [optEntry_wfFieldVal v hfv, optEntry_wfFieldVal v hfv]

theorem optEach_idem : (xs : JsonList) → wfObjList xs = true →
    optEach (optEach xs) = optEach xs
  | .nil, _ => rfl
  | .cons v tl, h => by
    obtain ⟨hv, htl⟩ := wfObjList_split v tl h
    show JsonList.cons (optimizeOrToIn (optimizeOrToIn v)) (optEach (optEach tl)) =
      .cons (optimizeOrToIn v) (optEach tl)
    rw [opt_idem v hv, optEach_idem tl htl]

end

/-- C8 counterexample: the optimizer is not idempotent on every filter
    object.  A one-member OR whose leaf binds equals to a Date value is
    collapsed by the first pass to {a: {equals: date}}, and the second pass
    walks that object with Object.entries, destroying the Date into {}. -/
theorem c8_counterexample_date_bound :
    optimizeOrToIn (optimizeOrToIn (jobj1 "OR" (.jarr (.cons
        (jobj1 "a" (jobj1 "equals" (.jdate (.utc 0 1)))) .nil)))) ≠
      optimizeOrToIn (jobj1 "OR" (.jarr (.cons
        (jobj1 "a" (jobj1 "equals" (.jdate (.utc 0 1)))) .nil))) := by
  decide

/-- C8 (amended): the optimizer is idempotent on well-formed filter objects,
    i.e. objects whose keys are AND/OR combinator arrays of well-formed
    objects, NOT-wrapped well-formed objects, or field keys bound to scalars
    or operator objects with scalar bounds (scalar arrays under in) - so in
    particular no Date or array operator bounds.  For every such x,
    optimize(optimize(x)) = optimize(x). -/
theorem c8_optimizer_idempotent_on_wellformed (x : JsonVal) (h : wfV x = true) :
    optimizeOrToIn (optimizeOrToIn x) = optimizeOrToIn x :=
  opt_idem x h

theorem c8_witness :
    wfV (jobj1 "OR" (.jarr (.cons
        (jobj1 "a" (jobj1 "equals" (jnum (qOfInt 1)))) (.cons
        (jobj1 "a" (jobj1 "equals" (jnum (qOfInt 2)))) .nil)))) = true ∧
    optimizeOrToIn (optimizeOrToIn (jobj1 "OR" (.jarr (.cons
        (jobj1 "a" (jobj1 "equals" (jnum (qOfInt 1)))) (.cons
        (jobj1 "a" (jobj1 "equals" (jnum (qOfInt 2)))) .nil))))) =
      optimizeOrToIn (jobj1 "OR" (.jarr (.cons
        (jobj1 "a" (jobj1 "equals" (jnum (qOfInt 1)))) (.cons
        (jobj1 "a" (jobj1 "equals" (jnum (qOfInt 2)))) .nil)))) :=
  ⟨by decide, c8_optimizer_idempotent_on_wellformed _ (by decide)⟩

/-!
Claim C1, amended machinery.  The original claim's leaf shape requires an in
binding to hold an array and asserts that any other leaf aborts the rewrite,
leaving the OR node as-is.  The code only tests value.in !== undefined and
then spreads value.in, so an in binding holding a string is spread
character-wise and participates in the rewrite (and a non-iterable in value
makes the spread throw, so the node is not left as-is there either).  The
amended leaf classification below follows the code: an in-bound array
contributes its elements and an in-bound string its characters.
-/

/-- The amended leaf shape: a single-field object whose value is an object
    carrying an equals binding (one value) or an in binding holding an array
    (its elements) or a string (spread character-wise into one-character
    strings, as the JS array spread does). -/
def leafEqInSp : JsonVal → Option (String × JsonList)
  | .jobj (.cons f (.jobj ops) .nil) =>
    (match getProp ops "equals" with
     | some e => some (f, .cons e .nil)
     | none =>
       match getProp ops "in" with
       | some (.jarr vs) => some (f, vs)
       | some (.jstr s) => some (f, charsToJson s.data)
       | _ => none)
  | _ => none

/-- Leaves on which the JS source is total: plain objects, and when a
    single-field object value carries an in binding without an equals one,
    that binding holds an array or a string (any other value is not
    iterable, so the spread would throw a TypeError rather than return). -/
def leafTameSp : JsonVal → Bool
  | .jobj (.cons _ (.jobj ops) .nil) =>
    (match getProp ops "equals" with
     | some _ => true
     | none =>
       match getProp ops "in" with
       | some (.jarr _) => true
       | some (.jstr _) => true
       | some _ => false
       | none => true)
  | .jobj _ => true
  | _ => false

/-- Per-leaf contributions under the amended leaf shape. -/
def contribsSp : JsonList → Option (List (String × JsonList))
  | .nil => some []
  | .cons l tl =>
    match leafEqInSp l with
    | some p => (contribsSp tl).map (fun ps => p :: ps)
    | none => none

/-- Values of the remaining leaves under the amended shape, required to sit
    on the given field. -/
def sameFieldValsSp (f : String) : JsonList → Option JsonList
  | .nil => some .nil
  | .cons l tl =>
    match leafEqInSp l with
    | some (g, vs) => if g = f then (sameFieldValsSp f tl).map (jlAppend vs) else none
    | none => none

/-- The amended claim's OR-rewrite data: flatten the nested OR lists to
    leaves, require every leaf to match the amended equals/in shape on one
    common field, and return that field with the deduplicated value list. -/
def specOrRewriteSp (conds : JsonList) : Option (String × JsonList) :=
  match collectList conds with
  | .nil => none
  | .cons l tl =>
    match leafEqInSp l with
    | some (f, vs) =>
      match sameFieldValsSp f tl with
      | some rest => some (f, dedupJ (jlAppend vs rest))
      | none => none
    | none => none

/-- One step of the classification loop on a spread-tame leaf: failure
    exactly when the leaf fails the amended shape, otherwise the
    contribution (characters for an in-bound string) is recorded and the
    loop continues. -/
theorem classify_stepSp (c : JsonVal) (hc : leafTameSp c = true) (tl : JsonList)
    (acc : List (String × JsonList)) :
    classifyConds (.cons c tl) acc =
      match leafEqInSp c with
      | none => none
      | some p => classifyConds tl (recAdd acc p.1 p.2) := by
  cases c with
  | jnull => simp [leafTameSp] at hc
  | jnan => simp [leafTameSp] at hc
  | jbool b => simp [leafTameSp] at hc
  | jnum q => simp [leafTameSp] at hc
  | jstr s => simp [leafTameSp] at hc
  | jdate t => simp [leafTameSp] at hc
  | jarr xs => simp [leafTameSp] at hc
  | jobj fs =>
    cases fs with
    | nil => simp [classifyConds, singleProp, leafEqInSp]
    | cons k v fs2 =>
      cases fs2 with
      | cons k2 v2 fs3 => simp [classifyConds, singleProp, leafEqInSp]
      | nil =>
        cases v with
        | jobj ops =>
          simp only [classifyConds, singleProp, truthyObject, getPropV, leafEqInSp, if_true]
          cases he : getProp ops "equals" with
          | some e => simp [he]
          | none =>
            cases hi : getProp ops "in" with
            | none => simp [he, hi]
            | some w =>
              cases w with
              | jarr vs => simp [he, hi, spreadIn]
              | jstr s2 => simp [he, hi, spreadIn]
              | jobj o2 => simp [leafTameSp, he, hi] at hc
              | jnull => simp [leafTameSp, he, hi] at hc
              | jnan => simp [leafTameSp, he, hi] at hc
              | jbool b2 => simp [leafTameSp, he, hi] at hc
              | jnum q2 => simp [leafTameSp, he, hi] at hc
              | jdate t2 => simp [leafTameSp, he, hi] at hc
        | jarr xs => simp [classifyConds, singleProp, truthyObject, getPropV, leafEqInSp]
        | jdate t => simp [classifyConds, singleProp, truthyObject, getPropV, leafEqInSp]
        | jnull => simp [classifyConds, singleProp, truthyObject, leafEqInSp]
        | jnan => simp [classifyConds, singleProp, truthyObject, leafEqInSp]
        | jbool b2 => simp [classifyConds, singleProp, truthyObject, leafEqInSp]
        | jnum q2 => simp [classifyConds, singleProp, truthyObject, leafEqInSp]
        | jstr s2 => simp [classifyConds, singleProp, truthyObject, leafEqInSp]

/-- On spread-tame leaves the source's classification loop computes exactly
    the fold of the amended per-leaf contributions over the field record. -/
theorem classify_eq_contribsSp : (ls : JsonList) → (acc : List (String × JsonList)) →
    jlAll leafTameSp ls = true →
    classifyConds ls acc =
      (match contribsSp ls with
       | none => none
       | some ps => some (ps.foldl recStep acc))
  | .nil, _, _ => rfl
  | .cons c tl, acc, h => by
    have hca : leafTameSp c = true ∧ jlAll leafTameSp tl = true := by
      simpa [jlAll, Bool.and_eq_true] using h
    obtain ⟨hc, htl⟩ := hca
    rw [classify_stepSp c hc tl acc]
    cases hle : leafEqInSp c with
    | none => simp [contribsSp, hle]
    | some p =>
      change classifyConds tl (recAdd acc p.1 p.2) = _
      rw [classify_eq_contribsSp tl (recAdd acc p.1 p.2) htl]
      cases hct : contribsSp tl <;> simp [contribsSp, hle, hct, recStep]

theorem sameFieldVals_eqSp : (f : String) → (tl : JsonList) →
    sameFieldValsSp f tl =
      (match contribsSp tl with
       | none => none
       | some ps => if allSameF f ps then some (concatVals ps) else none)
  | _, .nil => by simp [sameFieldValsSp, contribsSp, allSameF, concatVals]
  | f, .cons l tl => by
    simp only [sameFieldValsSp, contribsSp]
    cases hle : leafEqInSp l with
    | none => simp
    | some p =>
      obtain ⟨g, vs⟩ := p
      by_cases hg : g = f
      · subst hg
        simp only [if_pos rfl]
        rw [sameFieldVals_eqSp g tl]
        cases hct : contribsSp tl with
        | none => simp
        | some ps =>
          by_cases hall : ps.all (fun p => decide (p.1 = g)) = true
          · simp [allSameF, concatVals, Option.map, List.all_cons, hall]
          · simp [allSameF, concatVals, Option.map, List.all_cons, hall]
      · simp only [if_neg hg]
        cases hct : contribsSp tl with
        | none => simp
        | some ps => simp [allSameF, hg]

/-- On spread-tame leaf sets, the source's flattenOrConditions agrees with
    the amended spec-side description of the rewrite data. -/
theorem flatten_eq_specSp (conds : JsonList)
    (h : jlAll leafTameSp (collectList conds) = true) :
    flattenOrConditions conds = specOrRewriteSp conds := by
  unfold flattenOrConditions specOrRewriteSp
  rw [classify_eq_contribsSp (collectList conds) [] h]
  cases hcl : collectList conds with
  | nil => simp [contribsSp]
  | cons l tl =>
    cases hle : leafEqInSp l with
    | none => simp [contribsSp, hle]
    | some p =>
      obtain ⟨f, vs⟩ := p
      simp only [hle]
      rw [sameFieldVals_eqSp f tl]
      cases hct : contribsSp tl with
      | none => simp [contribsSp, hle, hct]
      | some ps =>
        simp only [contribsSp, hle, hct, Option.map, List.foldl_cons, recStep]
        have h0 : recAdd [] f vs = [(f, vs)] := rfl
        rw [h0]
        by_cases hall : allSameF f ps = true
        · rw [fold_single_same ps f vs hall]
          simp [hall]
        · rw [Bool.not_eq_true] at hall
          cases hres : ps.foldl recStep [(f, vs)] with
          | nil => simp [hall]
          | cons q qs =>
            cases qs with
            | nil =>
              exact absurd hres (by
                obtain ⟨g, ws⟩ := q
                exact fold_single_diff ps f vs hall g ws)
            | cons q2 qs2 => simp [hall]

/-- C1 counterexample: the leaf {f: {in: "ab"}} binds in to a string, so it
    fails the claim's {in: [v...]} shape and per the claim the OR node must
    be left as-is with the optimizer recursing into its members
    (specOrRewrite, the original claim-side classification, finds no rewrite
    data); the code instead spreads the string character-wise and rewrites
    the whole node to {f: {in: ["a", "b"]}}, which differs from the
    left-as-is result. -/
theorem c1_counterexample_in_string_spread :
    specOrRewrite (.cons (jobj1 "f" (jobj1 "in" (.jstr "ab"))) .nil) = none
    ∧ optimizeOrToIn (jobj1 "OR" (.jarr (.cons
        (jobj1 "f" (jobj1 "in" (.jstr "ab"))) .nil))) =
      jobj1 "f" (jobj1 "in" (.jarr (.cons (.jstr "a") (.cons (.jstr "b") .nil))))
    ∧ optimizeOrToIn (jobj1 "OR" (.jarr (.cons
        (jobj1 "f" (jobj1 "in" (.jstr "ab"))) .nil))) ≠
      .jobj (optFields (.cons "OR" (.jarr (.cons
        (jobj1 "f" (jobj1 "in" (.jstr "ab"))) .nil)) .nil)) := by
  decide

/-- C1 (amended): for a filter object with an OR list, the optimizer fully
    flattens nested OR lists to leaves and classifies each leaf as a
    single-field object whose value carries an equals binding (one value) or
    an in binding - where an in-bound array contributes its elements and an
    in-bound string is spread character-wise into its characters, instead of
    aborting the rewrite as the original claim stated; when every leaf
    passes and all reference the same field, the whole node is replaced by
    {field: {in: [deduplicated values]}} with more than one distinct value
    and {field: {equals: v}} with exactly one; when any leaf fails the
    amended shape or references a different field (or no value remains), the
    node is left as an object with the same keys and the optimizer recurses
    into its members individually (optFields).  The tameness hypothesis now
    only excludes in bindings that are neither arrays nor strings, where the
    JS spread throws a TypeError instead of returning a filter object. -/
theorem c1_or_chain_to_in_amended (fields : JsonFields) (conds : JsonList)
    (hor : getProp fields "OR" = some (.jarr conds))
    (htame : jlAll leafTameSp (collectList conds) = true) :
    (specOrRewriteSp conds = none →
      optimizeOrToIn (.jobj fields) = .jobj (optFields fields))
    ∧ (∀ f vs, specOrRewriteSp conds = some (f, vs) →
      optimizeOrToIn (.jobj fields) =
        if 1 < jlLength vs then jobj1 f (jobj1 "in" (.jarr vs))
        else
          match vs with
          | .cons v .nil => jobj1 f (jobj1 "equals" v)
          | _ => .jobj (optFields fields)) := by
  have hflat := flatten_eq_specSp conds htame
  constructor
  · intro hnone
    simp [optimizeOrToIn, hor, hflat, hnone]
  · intro f vs hsome
    simp [optimizeOrToIn, hor, hflat, hsome]

/-- C1 amended witness, exercising the string-spread path the original
    claim got wrong: an OR of {f: {in: "ab"}} and {f: {equals: "a"}} - the
    string is spread to its characters, the values deduplicated ("a" appears
    twice) and the node rewritten to one in condition. -/
theorem c1_amended_witness :
    getProp (.cons "OR" (.jarr (.cons (jobj1 "f" (jobj1 "in" (.jstr "ab")))
        (.cons (jobj1 "f" (jobj1 "equals" (.jstr "a"))) .nil))) .nil) "OR" =
      some (.jarr (.cons (jobj1 "f" (jobj1 "in" (.jstr "ab")))
        (.cons (jobj1 "f" (jobj1 "equals" (.jstr "a"))) .nil)))
    ∧ jlAll leafTameSp (collectList (.cons (jobj1 "f" (jobj1 "in" (.jstr "ab")))
        (.cons (jobj1 "f" (jobj1 "equals" (.jstr "a"))) .nil))) = true
    ∧ specOrRewriteSp (.cons (jobj1 "f" (jobj1 "in" (.jstr "ab")))
        (.cons (jobj1 "f" (jobj1 "equals" (.jstr "a"))) .nil)) =
      some ("f", .cons (.jstr "a") (.cons (.jstr "b") .nil))
    ∧ optimizeOrToIn (.jobj (.cons "OR" (.jarr (.cons
        (jobj1 "f" (jobj1 "in" (.jstr "ab")))
        (.cons (jobj1 "f" (jobj1 "equals" (.jstr "a"))) .nil))) .nil)) =
      jobj1 "f" (jobj1 "in" (.jarr (.cons (.jstr "a") (.cons (.jstr "b") .nil)))) := by
  refine ⟨rfl, by decide, rfl, ?_⟩
  exact (c1_or_chain_to_in_amended
    (.cons "OR" (.jarr (.cons (jobj1 "f" (jobj1 "in" (.jstr "ab")))
        (.cons (jobj1 "f" (jobj1 "equals" (.jstr "a"))) .nil))) .nil)
    (.cons (jobj1 "f" (jobj1 "in" (.jstr "ab")))
        (.cons (jobj1 "f" (jobj1 "equals" (.jstr "a"))) .nil))
    rfl (by decide)).2 "f"
    (.cons (.jstr "a") (.cons (.jstr "b") .nil))
    rfl
